import Mathlib

/-!
Verification of the KorEngine skeletal-animation core.

This file shallowly embeds the animation subsystem of the KorEngine
repository (src/geometry/vec3.rs, src/geometry/quaternion.rs,
src/geometry/transform.rs, src/graphics/animation.rs,
src/graphics/animator.rs, and the channel-loading part of
src/graphics/load_gltf.rs) into Lean and proves properties about it.

Modelling conventions:
* `f32` values are modelled as exact rationals `ℚ`; the claims under
  study are about the algebraic structure of the computations, not about
  floating-point rounding.
* The transcendental functions `sin` and `acos` (used only by the
  quaternion spherical interpolation) are abstracted as an explicit
  context `RealFns`; every statement is universally quantified over it.
* Rust `Vec` indexing panics on an out-of-range index; panics are
  modelled by `Option`, with `none` meaning "the program aborts".
* `usize::MAX`, used by the animator builder as a "no value" sentinel,
  is modelled by the constant `UMAX = 2^64 - 1`.
-/

namespace KorEngine

/-- `usize::MAX`, the sentinel value used by `Animator::new`. -/
def UMAX : ℕ := 2 ^ 64 - 1

/-- Abstracted real-valued functions used by `Quaternion::linear_interpolation`
(`f32::sin` and `f32::acos`). -/
structure RealFns where
  sin : ℚ → ℚ
  arccos : ℚ → ℚ

/-- `f32::signum` for non-NaN inputs: `1` for positive or zero, `-1` for negative. -/
def fsign (q : ℚ) : ℚ := if q < 0 then -1 else 1

/-- `Vec3` from src/geometry/vec3.rs. -/
@[ext]
structure Vec3 where
  x : ℚ
  y : ℚ
  z : ℚ
deriving DecidableEq

instance : Add Vec3 := ⟨fun a b => ⟨a.x + b.x, a.y + b.y, a.z + b.z⟩⟩

instance : Sub Vec3 := ⟨fun a b => ⟨a.x - b.x, a.y - b.y, a.z - b.z⟩⟩

instance : Mul Vec3 := ⟨fun a b => ⟨a.x * b.x, a.y * b.y, a.z * b.z⟩⟩

instance : HMul Vec3 ℚ Vec3 := ⟨fun a c => ⟨a.x * c, a.y * c, a.z * c⟩⟩

/-- `Vec3::dot`. -/
def Vec3.dot (a b : Vec3) : ℚ := a.x * b.x + a.y * b.y + a.z * b.z

/-- `Vec3::cross`. -/
def Vec3.cross (a b : Vec3) : Vec3 :=
  ⟨a.y * b.z - a.z * b.y, a.z * b.x - a.x * b.z, a.x * b.y - a.y * b.x⟩

/-- `<Vec3 as Interpolable>::linear_interpolation`. -/
def Vec3.linearInterpolation (self other : Vec3) (alpha : ℚ) : Vec3 :=
  self * (1 - alpha) + other * alpha

/-- `<Vec3 as Interpolable>::cubic_interpolation`. -/
def Vec3.cubicInterpolation (self other outTangent inTangent : Vec3)
    (timeInterval alpha : ℚ) : Vec3 :=
  let alpha2 := alpha * alpha
  let alpha3 := alpha2 * alpha
  self * (2 * alpha3 - 3 * alpha2 + 1)
    + outTangent * (timeInterval * (alpha3 - 2 * alpha2 + alpha))
    + other * (3 * alpha2 - 2 * alpha3)
    + inTangent * (timeInterval * (alpha3 - alpha2))

/-- `Quaternion` from src/geometry/quaternion.rs. -/
@[ext]
structure Quaternion where
  x : ℚ
  y : ℚ
  z : ℚ
  w : ℚ
deriving DecidableEq

/-- `SPERICAL_INTERPOLATION_LIMIT` (sic) from src/geometry/quaternion.rs. -/
def SPERICAL_INTERPOLATION_LIMIT : ℚ := 1 / 10

instance : Add Quaternion :=
  ⟨fun a b => ⟨a.x + b.x, a.y + b.y, a.z + b.z, a.w + b.w⟩⟩

instance : Sub Quaternion :=
  ⟨fun a b => ⟨a.x - b.x, a.y - b.y, a.z - b.z, a.w - b.w⟩⟩

/-- The Hamilton product `impl Mul for Quaternion`. -/
instance : Mul Quaternion :=
  ⟨fun a b =>
    ⟨a.x * b.w + a.w * b.x + a.y * b.z - a.z * b.y,
     a.y * b.w + a.w * b.y + a.z * b.x - a.x * b.z,
     a.z * b.w + a.w * b.z + a.x * b.y - a.y * b.x,
     a.w * b.w - a.x * b.x - a.y * b.y - a.z * b.z⟩⟩

instance : HMul Quaternion ℚ Quaternion :=
  ⟨fun a c => ⟨a.x * c, a.y * c, a.z * c, a.w * c⟩⟩

instance : HDiv Quaternion ℚ Quaternion :=
  ⟨fun a c => ⟨a.x / c, a.y / c, a.z / c, a.w / c⟩⟩

/-- `Quaternion::dot`. -/
def Quaternion.dot (a b : Quaternion) : ℚ :=
  a.x * b.x + a.y * b.y + a.z * b.z + a.w * b.w

/-- `Quaternion::real_linear_interpolation`. -/
def Quaternion.realLinearInterpolation (self other : Quaternion) (alpha : ℚ) :
    Quaternion :=
  self * (1 - alpha) + other * alpha

/-- `<Quaternion as Interpolable>::linear_interpolation` (spherical with a
stability fallback), with `sin`/`acos` abstracted by `F`. -/
def Quaternion.linearInterpolation (F : RealFns) (self other : Quaternion)
    (alpha : ℚ) : Quaternion :=
  let d := self.dot other
  let angle := F.arccos |d|
  let target := other * fsign d
  let norm := F.sin angle
  if norm < SPERICAL_INTERPOLATION_LIMIT then
    self.realLinearInterpolation target alpha
  else
    self * (F.sin ((1 - alpha) * angle) / norm)
      + target * (F.sin (alpha * angle) / norm)

/-- `<Quaternion as Interpolable>::cubic_interpolation`. -/
def Quaternion.cubicInterpolation (self other outTangent inTangent : Quaternion)
    (timeInterval alpha : ℚ) : Quaternion :=
  let alpha2 := alpha * alpha
  let alpha3 := alpha2 * alpha
  self * (2 * alpha3 - 3 * alpha2 + 1)
    + outTangent * (timeInterval * (alpha3 - 2 * alpha2 + alpha))
    + other * (3 * alpha2 - 2 * alpha3)
    + inTangent * (timeInterval * (alpha3 - alpha2))

/-- The `Interpolable` trait as an explicit dictionary. -/
structure Interpolable (T : Type) where
  linearInterpolation : T → T → ℚ → T
  cubicInterpolation : T → T → T → T → ℚ → ℚ → T

/-- The `Interpolable` impl for `Vec3`. -/
def vec3Interpolable : Interpolable Vec3 :=
  ⟨Vec3.linearInterpolation, Vec3.cubicInterpolation⟩

/-- The `Interpolable` impl for `Quaternion` (parametrised by the abstracted
real functions). -/
def quatInterpolable (F : RealFns) : Interpolable Quaternion :=
  ⟨Quaternion.linearInterpolation F, Quaternion.cubicInterpolation⟩

/-- `Transform` from src/geometry/transform.rs: a 3×3 rotation-scale block
plus a translation row, in the same `[row][column]` layout as the source. -/
structure Transform where
  rotationScale : Matrix (Fin 3) (Fin 3) ℚ
  translation : Fin 3 → ℚ

instance : DecidableEq Transform := fun a b =>
  decidable_of_iff (a.rotationScale = b.rotationScale ∧ a.translation = b.translation)
    (by cases a; cases b; simp)

/-- `Transform::new` (the identity transform). -/
def Transform.new : Transform :=
  { rotationScale := !![1, 0, 0; 0, 1, 0; 0, 0, 1], translation := ![0, 0, 0] }

/-- `Transform::from_trs`. -/
def Transform.fromTrs (t : Vec3) (r : Quaternion) (s : Vec3) : Transform :=
  let ww := r.w * r.w
  let xx := r.x * r.x
  let yy := r.y * r.y
  let zz := r.z * r.z
  let wx := r.w * r.x
  let wy := r.w * r.y
  let wz := r.w * r.z
  let xy := r.x * r.y
  let xz := r.x * r.z
  let yz := r.y * r.z
  { translation := ![t.x, t.y, t.z],
    rotationScale :=
      !![s.x * (ww + xx - yy - zz), s.x * 2 * (wz + xy), s.x * 2 * (xz - wy);
         s.y * 2 * (xy - wz), s.y * (ww - xx + yy - zz), s.y * 2 * (wx + yz);
         s.z * 2 * (wy + xz), s.z * 2 * (yz - wx), s.z * (ww - xx - yy + zz)] }

/-- `Transform::translate` (translate in the transform's local frame). -/
def Transform.translate (self : Transform) (offset : Fin 3 → ℚ) : Transform :=
  { translation :=
      ![self.translation 0
          + offset 0 * self.rotationScale 0 0
          + offset 1 * self.rotationScale 1 0
          + offset 2 * self.rotationScale 2 0,
        self.translation 1
          + offset 0 * self.rotationScale 0 1
          + offset 1 * self.rotationScale 1 1
          + offset 2 * self.rotationScale 2 1,
        self.translation 2
          + offset 0 * self.rotationScale 0 2
          + offset 1 * self.rotationScale 1 2
          + offset 2 * self.rotationScale 2 2],
    rotationScale := self.rotationScale }

/-- `Transform::reverse` (inverse, valid for orthogonal rotation-scale blocks). -/
def Transform.reverse (self : Transform) : Transform :=
  { rotationScale :=
      !![self.rotationScale 0 0, self.rotationScale 1 0, self.rotationScale 2 0;
         self.rotationScale 0 1, self.rotationScale 1 1, self.rotationScale 2 1;
         self.rotationScale 0 2, self.rotationScale 1 2, self.rotationScale 2 2],
    translation :=
      ![-self.translation 0 * self.rotationScale 0 0
          - self.translation 1 * self.rotationScale 0 1
          - self.translation 2 * self.rotationScale 0 2,
        -self.translation 0 * self.rotationScale 1 0
          - self.translation 1 * self.rotationScale 1 1
          - self.translation 2 * self.rotationScale 1 2,
        -self.translation 0 * self.rotationScale 2 0
          - self.translation 1 * self.rotationScale 2 1
          - self.translation 2 * self.rotationScale 2 2] }

/-- `Transform::to_homogeneous`. -/
def Transform.toHomogeneous (self : Transform) : Matrix (Fin 4) (Fin 4) ℚ :=
  !![self.rotationScale 0 0, self.rotationScale 0 1, self.rotationScale 0 2, 0;
     self.rotationScale 1 0, self.rotationScale 1 1, self.rotationScale 1 2, 0;
     self.rotationScale 2 0, self.rotationScale 2 1, self.rotationScale 2 2, 0;
     self.translation 0, self.translation 1, self.translation 2, 1]

/-- `Transform::from_homogeneous`. -/
def Transform.fromHomogeneous (m : Matrix (Fin 4) (Fin 4) ℚ) : Transform :=
  { translation := ![m 3 0, m 3 1, m 3 2],
    rotationScale := !![m 0 0, m 0 1, m 0 2; m 1 0, m 1 1, m 1 2; m 2 0, m 2 1, m 2 2] }

/-- `Transform::compose`, transliterated entry by entry from the source. -/
def Transform.compose (self other : Transform) : Transform :=
  { rotationScale :=
      !![self.rotationScale 0 0 * other.rotationScale 0 0
           + self.rotationScale 1 0 * other.rotationScale 0 1
           + self.rotationScale 2 0 * other.rotationScale 0 2,
         self.rotationScale 0 1 * other.rotationScale 0 0
           + self.rotationScale 1 1 * other.rotationScale 0 1
           + self.rotationScale 2 1 * other.rotationScale 0 2,
         self.rotationScale 0 2 * other.rotationScale 0 0
           + self.rotationScale 1 2 * other.rotationScale 0 1
           + self.rotationScale 2 2 * other.rotationScale 0 2;
         self.rotationScale 0 0 * other.rotationScale 1 0
           + self.rotationScale 1 0 * other.rotationScale 1 1
           + self.rotationScale 2 0 * other.rotationScale 1 2,
         self.rotationScale 0 1 * other.rotationScale 1 0
           + self.rotationScale 1 1 * other.rotationScale 1 1
           + self.rotationScale 2 1 * other.rotationScale 1 2,
         self.rotationScale 0 2 * other.rotationScale 1 0
           + self.rotationScale 1 2 * other.rotationScale 1 1
           + self.rotationScale 2 2 * other.rotationScale 1 2;
         self.rotationScale 0 0 * other.rotationScale 2 0
           + self.rotationScale 1 0 * other.rotationScale 2 1
           + self.rotationScale 2 0 * other.rotationScale 2 2,
         self.rotationScale 0 1 * other.rotationScale 2 0
           + self.rotationScale 1 1 * other.rotationScale 2 1
           + self.rotationScale 2 1 * other.rotationScale 2 2,
         self.rotationScale 0 2 * other.rotationScale 2 0
           + self.rotationScale 1 2 * other.rotationScale 2 1
           + self.rotationScale 2 2 * other.rotationScale 2 2],
    translation :=
      ![other.translation 0 * self.rotationScale 0 0
          + other.translation 1 * self.rotationScale 1 0
          + other.translation 2 * self.rotationScale 2 0
          + self.translation 0,
        other.translation 0 * self.rotationScale 0 1
          + other.translation 1 * self.rotationScale 1 1
          + other.translation 2 * self.rotationScale 2 1
          + self.translation 1,
        other.translation 0 * self.rotationScale 0 2
          + other.translation 1 * self.rotationScale 1 2
          + other.translation 2 * self.rotationScale 2 2
          + self.translation 2] }

/-- Application of a `Transform` to a row vector, `v·M + t`, exactly the maths
performed by `Transform::translate` on an offset and by `v·to_homogeneous()` on
a homogeneous row vector. -/
def Transform.rowApply (self : Transform) (v : Fin 3 → ℚ) : Fin 3 → ℚ :=
  Matrix.vecMul v self.rotationScale + self.translation

/-- `Sampler<T>` from src/graphics/animation.rs. The `cubic` fields are, in
source order, in-tangents, values, out-tangents. -/
inductive Sampler (T : Type) where
  | step (values : List T)
  | linear (values : List T)
  | cubic (inTangents values outTangents : List T)
deriving DecidableEq

/-- `Sampler::get_value` (`values[index]`, a panic on an out-of-range index). -/
def Sampler.getValue {T : Type} : Sampler T → ℕ → Option T
  | .cubic _ values _, index => values.get? index
  | .step values, index => values.get? index
  | .linear values, index => values.get? index

/-- `Sampler::interpolate_value`. -/
def Sampler.interpolateValue {T : Type} (inst : Interpolable T) :
    Sampler T → ℕ → ℚ → ℚ → ℚ → Option T
  | .step values, index, _, _, _ => values.get? index
  | .linear values, index, t, tmin, tmax => do
      let alpha := (t - tmin) / (tmax - tmin)
      let v0 ← values.get? index
      let v1 ← values.get? (index + 1)
      some (inst.linearInterpolation v0 v1 alpha)
  | .cubic inTangents values outTangents, index, t, tmin, tmax => do
      let timeInterval := tmax - tmin
      let alpha := (t - tmin) / timeInterval
      let outTangent ← outTangents.get? index
      let inTangent ← inTangents.get? (index + 1)
      let v0 ← values.get? index
      let v1 ← values.get? (index + 1)
      some (inst.cubicInterpolation v0 v1 outTangent inTangent timeInterval alpha)

/-- `AnimatedProperty` from src/graphics/animation.rs. -/
inductive AnimatedProperty where
  | translation (s : Sampler Vec3)
  | rotation (s : Sampler Quaternion)
  | scale (s : Sampler Vec3)
deriving DecidableEq

/-- `AnimatedValue` from src/graphics/animation.rs. -/
inductive AnimatedValue where
  | translation (nodeId : ℕ) (v : Vec3)
  | rotation (nodeId : ℕ) (q : Quaternion)
  | scale (nodeId : ℕ) (v : Vec3)
deriving DecidableEq

/-- `AnimatedProperty::get_value`. -/
def AnimatedProperty.getValue : AnimatedProperty → ℕ → ℕ → Option AnimatedValue
  | .translation s, index, nodeId =>
      (s.getValue index).map (AnimatedValue.translation nodeId)
  | .rotation s, index, nodeId =>
      (s.getValue index).map (AnimatedValue.rotation nodeId)
  | .scale s, index, nodeId =>
      (s.getValue index).map (AnimatedValue.scale nodeId)

/-- `AnimatedProperty::interpolate_value`. -/
def AnimatedProperty.interpolateValue (F : RealFns) :
    AnimatedProperty → ℕ → ℕ → ℚ → ℚ → ℚ → Option AnimatedValue
  | .translation s, index, nodeId, t, tmin, tmax =>
      (s.interpolateValue vec3Interpolable index t tmin tmax).map
        (AnimatedValue.translation nodeId)
  | .rotation s, index, nodeId, t, tmin, tmax =>
      (s.interpolateValue (quatInterpolable F) index t tmin tmax).map
        (AnimatedValue.rotation nodeId)
  | .scale s, index, nodeId, t, tmin, tmax =>
      (s.interpolateValue vec3Interpolable index t tmin tmax).map
        (AnimatedValue.scale nodeId)

/-- `AnimationChannel` from src/graphics/animation.rs. -/
structure AnimationChannel where
  nodeId : ℕ
  animatedProperty : AnimatedProperty
  timestamps : List ℚ
  tMin : ℚ
  tMax : ℚ
deriving DecidableEq

/-- The loop of `AnimationChannel::get_index`: `index_min = lo`,
`index_max = hi`; while `hi > lo + 1`, probe the midpoint and narrow on
`timestamps[mid] > t`. The indexing inside the loop is always within bounds
when called from `compute`, so a defaulted read models it exactly there. -/
def getIndexAux (ts : List ℚ) (t : ℚ) (indexMin indexMax : ℕ) : ℕ :=
  if _h : indexMin + 1 < indexMax then
    let indexMean := (indexMin + indexMax) / 2
    if ts.getD indexMean 0 > t then getIndexAux ts t indexMin indexMean
    else getIndexAux ts t indexMean indexMax
  else indexMin
termination_by indexMax - indexMin
decreasing_by all_goals omega

/-- `AnimationChannel::get_index`. -/
def AnimationChannel.getIndex (ch : AnimationChannel) (t : ℚ) : ℕ :=
  getIndexAux ch.timestamps t 0 (ch.timestamps.length - 1)

/-- `AnimationChannel::compute`. -/
def AnimationChannel.compute (F : RealFns) (ch : AnimationChannel) (t : ℚ) :
    Option AnimatedValue :=
  if t ≤ ch.tMin then
    ch.animatedProperty.getValue 0 ch.nodeId
  else if ch.tMax ≤ t then
    ch.animatedProperty.getValue (ch.timestamps.length - 1) ch.nodeId
  else
    let index := ch.getIndex t
    match ch.timestamps.get? index, ch.timestamps.get? (index + 1) with
    | some tmin, some tmax =>
        ch.animatedProperty.interpolateValue F index ch.nodeId t tmin tmax
    | _, _ => none

/-- `Animation` from src/graphics/animation.rs. -/
structure Animation where
  channels : List AnimationChannel
deriving DecidableEq

/-- `Node` from src/graphics/animator.rs. -/
structure Node where
  rotation : Quaternion
  translation : Vec3
  scale : Vec3
deriving DecidableEq

/-- A default `Node` used only for defaulted list reads in specifications. -/
def nodeDflt : Node := ⟨⟨0, 0, 0, 1⟩, ⟨0, 0, 0⟩, ⟨1, 1, 1⟩⟩

/-- `Animator` from src/graphics/animator.rs. -/
structure Animator where
  nodes : List Node
  startNodes : List Node
  inverseTransforms : List Transform
  parents : List ℕ
  animations : List Animation
deriving DecidableEq

/-- The loop of `Animator::compute_transforms` for joints `1, 2, ...`:
`cum` is the `cumulated_transforms` vector, `res` the `result` vector. -/
def Animator.ctGo (a : Animator) (i : ℕ) (cum res : List Transform) :
    Option (List Transform) :=
  if _h : i < a.nodes.length then
    match a.nodes.get? i, a.parents.get? i, a.inverseTransforms.get? i with
    | some node, some p, some inv =>
      match cum.get? p with
      | some cp =>
        let t := cp.compose (Transform.fromTrs node.translation node.rotation node.scale)
        Animator.ctGo a (i + 1) (cum ++ [t]) (res ++ [t.compose inv])
      | none => none
    | _, _, _ => none
  else some res
termination_by a.nodes.length - i
decreasing_by omega

/-- `Animator::compute_transforms`. -/
def Animator.computeTransforms (a : Animator) : Option (List Transform) :=
  match a.nodes.get? 0, a.inverseTransforms.get? 0 with
  | some n0, some inv0 =>
    let t := Transform.fromTrs n0.translation n0.rotation n0.scale
    a.ctGo 1 [t] [t.compose inv0]
  | _, _ => none

/-- The forward-pass recurrence for cumulated transforms, written as a closed
recursion: `cumSpec 0` is the root's local transform, and `cumSpec i` composes
the parent's cumulated transform with joint `i`'s local transform. The `min`
only serves termination; it is invisible whenever `parents[i] < i`. -/
def Animator.cumSpec (a : Animator) : ℕ → Transform
  | 0 =>
    let n := a.nodes.getD 0 nodeDflt
    Transform.fromTrs n.translation n.rotation n.scale
  | i + 1 =>
    let n := a.nodes.getD (i + 1) nodeDflt
    (Animator.cumSpec a (min (a.parents.getD (i + 1) 0) i)).compose
      (Transform.fromTrs n.translation n.rotation n.scale)
decreasing_by exact Nat.lt_succ_of_le (min_le_right _ _)

/-- `Animator::reset` (copies the rest pose back into the current pose). -/
def Animator.reset (a : Animator) : Animator :=
  { a with nodes := a.startNodes }

/-- `Animator::scale_node`. -/
def Animator.scaleNode (a : Animator) (nodeId : ℕ) (scale : Vec3) : Option Animator :=
  match a.nodes.get? nodeId with
  | some n => some { a with nodes := a.nodes.set nodeId { n with scale := n.scale * scale } }
  | none => none

/-- `Animator::translate_node`. -/
def Animator.translateNode (a : Animator) (nodeId : ℕ) (translation : Vec3) :
    Option Animator :=
  match a.nodes.get? nodeId with
  | some n =>
      some { a with nodes := a.nodes.set nodeId { n with translation := n.translation + translation } }
  | none => none

/-- `Animator::rotate_node`. -/
def Animator.rotateNode (a : Animator) (nodeId : ℕ) (rotation : Quaternion) :
    Option Animator :=
  match a.nodes.get? nodeId with
  | some n =>
      some { a with nodes := a.nodes.set nodeId { n with rotation := rotation * n.rotation } }
  | none => none

/-- One write performed by the loop body of `Animator::animate`. -/
def applyAnimatedValue (nodes : List Node) : AnimatedValue → Option (List Node)
  | .translation nodeId v =>
      match nodes.get? nodeId with
      | some n => some (nodes.set nodeId { n with translation := v })
      | none => none
  | .rotation nodeId q =>
      match nodes.get? nodeId with
      | some n => some (nodes.set nodeId { n with rotation := q })
      | none => none
  | .scale nodeId v =>
      match nodes.get? nodeId with
      | some n => some (nodes.set nodeId { n with scale := v })
      | none => none

/-- The loop of `Animator::animate`: evaluate each channel at `t` and write the
resulting property into the node array, in the clip's channel order. -/
def applyChannels (F : RealFns) (t : ℚ) :
    List AnimationChannel → List Node → Option (List Node)
  | [], nodes => some nodes
  | ch :: rest, nodes => do
      let av ← ch.compute F t
      let nodes1 ← applyAnimatedValue nodes av
      applyChannels F t rest nodes1

/-- `Animator::animate`. -/
def Animator.animate (F : RealFns) (a : Animator) (id : ℕ) (t : ℚ) : Option Animator := do
  let anim ← a.animations.get? id
  let nodes1 ← applyChannels F t anim.channels a.nodes
  some { a with nodes := nodes1 }

/-- A call to one of the four pose-mutating operations of `Animator`. -/
inductive AnimOp where
  | animate (id : ℕ) (t : ℚ)
  | scaleNode (nodeId : ℕ) (v : Vec3)
  | translateNode (nodeId : ℕ) (v : Vec3)
  | rotateNode (nodeId : ℕ) (q : Quaternion)

/-- Apply one pose-mutating operation. -/
def applyOp (F : RealFns) (a : Animator) : AnimOp → Option Animator
  | .animate id t => a.animate F id t
  | .scaleNode n v => a.scaleNode n v
  | .translateNode n v => a.translateNode n v
  | .rotateNode n q => a.rotateNode n q

/-- Apply a sequence of pose-mutating operations, left to right. -/
def applyOps (F : RealFns) : List AnimOp → Animator → Option Animator
  | [], a => some a
  | op :: rest, a => do applyOps F rest (← applyOp F a op)

/-- A glTF node as consumed by `Animator::new`: its children (by index into the
full node list) and its decomposed local TRS. -/
structure GNode where
  children : List ℕ
  translation : Vec3
  rotation : Quaternion
  scale : Vec3
deriving DecidableEq

/-- A default `GNode` used only for defaulted list reads in hypotheses. -/
def gnodeDflt : GNode := ⟨[], ⟨0, 0, 0⟩, ⟨0, 0, 0, 1⟩, ⟨1, 1, 1⟩⟩

/-- A bounds-checked vector write: `v[i] = x` panics when `i` is out of range. -/
def setOpt {α : Type} (l : List α) (i : ℕ) (x : α) : Option (List α) :=
  if i < l.length then some (l.set i x) else none

/-- The first loop of `Animator::new`:
`for (i, node_id) in node_ids.iter().enumerate() { global_id_to_joint[node_id] = i }`. -/
def fillG2J : List ℕ → ℕ → List ℕ → Option (List ℕ)
  | [], _, acc => some acc
  | nodeId :: rest, i, acc => do fillG2J rest (i + 1) (← setOpt acc nodeId i)

/-- Inner loop of the parent-recording pass: record `parentId` as the parent of
each child in `children`. -/
def setChildren (parentId : ℕ) : List ℕ → List ℕ → Option (List ℕ)
  | [], acc => some acc
  | childId :: rest, acc => do setChildren parentId rest (← setOpt acc childId parentId)

/-- The second loop of `Animator::new`: `all_parents[child] = parent` for every
parent/child edge, in node order. -/
def fillParents : List GNode → ℕ → List ℕ → Option (List ℕ)
  | [], _, acc => some acc
  | n :: rest, parentId, acc => do
      fillParents rest (parentId + 1) (← setChildren parentId n.children acc)

/-- The root-finding loop of `Animator::new`:
`while all_parents[root] != usize::MAX { root = all_parents[root] }`, with fuel
to model divergence on a cyclic parent chain. -/
def findRoot (allParents : List ℕ) : ℕ → ℕ → Option ℕ
  | 0, _ => none
  | fuel + 1, x => do
      let p ← allParents.get? x
      if p = UMAX then some x else findRoot allParents fuel p

/-- The mutable state of the traversal loop of `Animator::new`. -/
structure TravState where
  stack : List ℕ
  g2i : List ℕ
  j2i : List ℕ
  parents : List ℕ
  startNodes : List Node
  invTs : List Transform
deriving DecidableEq

/-- The read-only data of the traversal loop of `Animator::new`. -/
structure BuildCtx where
  allNodes : List GNode
  g2joint : List ℕ
  allParents : List ℕ
  invOpt : Option (List Transform)

/-- One iteration of the traversal loop of `Animator::new`: pop `nodeId`, push
its children, and if it is a joint assign it the next internal id, record its
internal parent and rest-pose node, and compute its inverse bind transform. -/
def travStep (c : BuildCtx) (nodeId : ℕ) (rest : List ℕ) (s : TravState) :
    Option TravState := do
  let jointId ← c.g2joint.get? nodeId
  let gnode ← c.allNodes.get? nodeId
  let stack1 := gnode.children.foldl (fun st ch => ch :: st) rest
  if jointId < UMAX then do
    let innerId := s.startNodes.length
    let j2i1 ← setOpt s.j2i jointId innerId
    let g2i1 ← setOpt s.g2i nodeId innerId
    let ap ← c.allParents.get? nodeId
    let parentId ← g2i1.get? ap
    let parents1 ← setOpt s.parents innerId parentId
    let invT ← match c.invOpt with
      | some transforms => transforms.get? jointId
      | none =>
        let tr := (Transform.fromTrs gnode.translation gnode.rotation gnode.scale).reverse
        if parentId < UMAX then (s.invTs.get? parentId).map (fun p => tr.compose p)
        else some tr
    some ⟨stack1, g2i1, j2i1, parents1,
      s.startNodes ++ [⟨gnode.rotation, gnode.translation, gnode.scale⟩],
      s.invTs ++ [invT]⟩
  else
    some ⟨stack1, s.g2i, s.j2i, s.parents, s.startNodes, s.invTs⟩

/-- The traversal loop of `Animator::new`
(`while let Some(node_id) = node_to_traverse.pop()`), with fuel to model
divergence on a cyclic children graph. -/
def traverse (c : BuildCtx) : ℕ → TravState → Option TravState
  | 0, _ => none
  | fuel + 1, s =>
    match s.stack with
    | [] => some s
    | nodeId :: rest => do traverse c fuel (← travStep c nodeId rest s)

/-- `Animator::new`: build the joint arrays from the full node list, the skin
joint list, and the optional precomputed inverse bind transforms. Returns the
animator together with the global-id→internal-id and
skin-local-id→internal-id mappings. -/
def animatorNew (fuel : ℕ) (allNodes : List GNode) (nodeIds : List ℕ)
    (invOpt : Option (List Transform)) :
    Option (Animator × List ℕ × List ℕ) := do
  let g2joint ← fillG2J nodeIds 0 (List.replicate allNodes.length UMAX)
  let allParents ← fillParents allNodes 0 (List.replicate allNodes.length UMAX)
  let first ← nodeIds.get? 0
  let root ← findRoot allParents fuel first
  let sFinal ← traverse ⟨allNodes, g2joint, allParents, invOpt⟩ fuel
    ⟨[root], List.replicate allNodes.length UMAX,
      List.replicate nodeIds.length UMAX, List.replicate nodeIds.length UMAX,
      [], []⟩
  some (⟨sFinal.startNodes, sFinal.startNodes, sFinal.invTs, sFinal.parents, []⟩,
    sFinal.g2i, sFinal.j2i)

/-- The decoded output accessor of a glTF animation channel
(`gltf::animation::util::ReadOutputs`). -/
inductive GltfOutputs where
  | rotations (values : List Quaternion)
  | translations (values : List Vec3)
  | scales (values : List Vec3)
  | morphTargetWeights (values : List ℚ)
deriving DecidableEq

/-- A glTF sampler interpolation mode. -/
inductive GltfInterpolation where
  | step
  | linear
  | cubicSpline
deriving DecidableEq

/-- A decoded glTF animation channel as consumed by `load_channel`. -/
structure GltfChannel where
  targetNode : ℕ
  timestamps : List ℚ
  outputs : GltfOutputs
  interpolation : GltfInterpolation
deriving DecidableEq

/-- `convert_sampler` from src/graphics/load_gltf.rs: step/linear collect the
values; cubic splits the stream into `length` in-tangents, `length` values and
`length` out-tangents (a panic when the stream is too short). -/
def convertSampler {T : Type} (l : List T) (interpolation : GltfInterpolation)
    (length : ℕ) : Option (Sampler T) :=
  match interpolation with
  | .step => some (Sampler.step l)
  | .linear => some (Sampler.linear l)
  | .cubicSpline =>
      if 3 * length ≤ l.length then
        some (Sampler.cubic (l.take length) ((l.drop length).take length)
          ((l.drop (2 * length)).take length))
      else none

/-- `load_channel` from src/graphics/load_gltf.rs. Returns `none` both for the
two skip paths of the source (`target not a joint`, and the logged-and-skipped
morph-target case) and for its panic paths (empty timestamps, out-of-range
mapping index, too-short cubic stream). -/
def loadChannel (ch : GltfChannel) (joints : List ℕ) (mapping : List ℕ) :
    Option AnimationChannel := do
  if ch.targetNode ∈ joints then do
    let nodeId ← mapping.get? ch.targetNode
    let tMin ← ch.timestamps.get? 0
    let tMax ← ch.timestamps.get? (ch.timestamps.length - 1)
    let frameCount := ch.timestamps.length
    let animatedProperty ← match ch.outputs with
      | .rotations values =>
          (convertSampler values ch.interpolation frameCount).map
            AnimatedProperty.rotation
      | .translations values =>
          (convertSampler values ch.interpolation frameCount).map
            AnimatedProperty.translation
      | .scales values =>
          (convertSampler values ch.interpolation frameCount).map
            AnimatedProperty.scale
      | .morphTargetWeights _ => none
    some ⟨nodeId, animatedProperty, ch.timestamps, tMin, tMax⟩
  else none

/-- The per-animation channel collection of `load_animator`:
`animation.channels().filter_map(|c| load_channel(..)).collect()`. -/
def loadAnimation (chs : List GltfChannel) (joints : List ℕ) (mapping : List ℕ) :
    Animation :=
  ⟨chs.filterMap (fun c => loadChannel c joints mapping)⟩

/-- Concrete input: three nodes `0 → 1 → 2` (node 0 the root), with joints
`[1, 2]`; a well-formed single-root joint subtree. -/
def wAllNodes : List GNode :=
  [⟨[1], ⟨0, 0, 0⟩, ⟨0, 0, 0, 1⟩, ⟨1, 1, 1⟩⟩,
   ⟨[2], ⟨0, 1, 0⟩, ⟨0, 0, 0, 1⟩, ⟨1, 1, 1⟩⟩,
   ⟨[], ⟨0, 0, 1⟩, ⟨0, 0, 0, 1⟩, ⟨1, 1, 1⟩⟩]

/-- Concrete skin joint list for `wAllNodes`. -/
def wNodeIds : List ℕ := [1, 2]

/-- Concrete precomputed inverse bind transforms for `wAllNodes`. -/
def wInv : Option (List Transform) := some [Transform.new, Transform.new]

/-- Concrete input with a joint disconnected from the discovered root: nodes
`0 → 1` (root 0) and a separate tree `2 → 3`, with joints `[1, 3]`. Joint `3`
is never traversed. -/
def dAllNodes : List GNode :=
  [⟨[1], ⟨0, 0, 0⟩, ⟨0, 0, 0, 1⟩, ⟨1, 1, 1⟩⟩,
   ⟨[], ⟨0, 1, 0⟩, ⟨0, 0, 0, 1⟩, ⟨1, 1, 1⟩⟩,
   ⟨[3], ⟨0, 0, 0⟩, ⟨0, 0, 0, 1⟩, ⟨1, 1, 1⟩⟩,
   ⟨[], ⟨0, 0, 1⟩, ⟨0, 0, 0, 1⟩, ⟨1, 1, 1⟩⟩]

/-- Concrete skin joint list for `dAllNodes` (joint `3` is disconnected). -/
def dNodeIds : List ℕ := [1, 3]

/-- Concrete inverse bind transforms for `dAllNodes`. -/
def dInv : Option (List Transform) := some [Transform.new, Transform.new]

/-- Concrete input whose traversal root node `0` is itself a joint. -/
def rAllNodes : List GNode :=
  [⟨[1], ⟨0, 0, 0⟩, ⟨0, 0, 0, 1⟩, ⟨1, 1, 1⟩⟩,
   ⟨[], ⟨0, 1, 0⟩, ⟨0, 0, 0, 1⟩, ⟨1, 1, 1⟩⟩]

/-- Concrete skin joint list for `rAllNodes`, containing the root node `0`. -/
def rNodeIds : List ℕ := [0, 1]

/-- A concrete two-joint animator used to witness the pose-evaluation theorem. -/
def wAnimator : Animator :=
  { nodes := [nodeDflt, ⟨⟨0, 0, 0, 1⟩, ⟨0, 1, 0⟩, ⟨1, 1, 1⟩⟩],
    startNodes := [nodeDflt, ⟨⟨0, 0, 0, 1⟩, ⟨0, 1, 0⟩, ⟨1, 1, 1⟩⟩],
    inverseTransforms := [Transform.new, Transform.new],
    parents := [UMAX, 0],
    animations := [] }

/-- A concrete step-sampler channel on two keyframes, used to witness the
clamping theorem. -/
def wChannelStep : AnimationChannel :=
  { nodeId := 0,
    animatedProperty := AnimatedProperty.translation
      (Sampler.step [⟨1, 0, 0⟩, ⟨2, 0, 0⟩]),
    timestamps := [0, 1],
    tMin := 0,
    tMax := 1 }

/-- A concrete linear channel on three keyframes, used to witness the interval
search theorem. -/
def wChannelLinear : AnimationChannel :=
  { nodeId := 0,
    animatedProperty := AnimatedProperty.translation
      (Sampler.linear [⟨1, 0, 0⟩, ⟨2, 0, 0⟩, ⟨4, 0, 0⟩]),
    timestamps := [0, 1, 2],
    tMin := 0,
    tMax := 2 }

/-- A concrete morph-target channel, used to witness the skip behaviour. -/
def wChannelMorph : GltfChannel :=
  { targetNode := 0,
    timestamps := [0, 1],
    outputs := GltfOutputs.morphTargetWeights [0, 1],
    interpolation := GltfInterpolation.linear }

/-- Dummy real-function context used by witnesses (the witnessed operations
never reach the spherical branch). -/
def wRealFns : RealFns := ⟨fun _ => 0, fun _ => 0⟩

/-- `c` is listed among the children of node `p` in the node list. -/
def childOf (allNodes : List GNode) (c p : ℕ) : Prop :=
  p < allNodes.length ∧ c ∈ (allNodes.getD p gnodeDflt).children

/-- Reachability along child edges (`Reaches allNodes x y` means `y` lies in the
subtree of `x`, including `x` itself). -/
inductive Reaches (allNodes : List GNode) : ℕ → ℕ → Prop where
  | refl (x : ℕ) : Reaches allNodes x x
  | tail {x b c : ℕ} : Reaches allNodes x b → childOf allNodes c b →
      Reaches allNodes x c

/-- Static facts about the prepared arrays of `Animator::new`, derived from the
well-formedness of the node hierarchy: array lengths, that `all_parents`
records exactly the child edges (uniquely), a rank function certifying
acyclicity, and a joint `r` such that every other joint's glTF parent is a
joint. -/
structure BuildFacts (c : BuildCtx) (numJoints : ℕ) (rank : ℕ → ℕ) (r : ℕ) : Prop where
  g2jLen : c.g2joint.length = c.allNodes.length
  apLen : c.allParents.length = c.allNodes.length
  nLen : c.allNodes.length < UMAX
  jLen : numJoints < UMAX
  g2jBound : ∀ y, c.g2joint.getD y UMAX ≠ UMAX → c.g2joint.getD y UMAX < UMAX
  apFact : ∀ x, c.allParents.getD x UMAX ≠ UMAX →
    childOf c.allNodes x (c.allParents.getD x UMAX)
  apComplete : ∀ x p, childOf c.allNodes x p → c.allParents.getD x UMAX ≠ UMAX
  uniqParent : ∀ x p1 p2, childOf c.allNodes x p1 → childOf c.allNodes x p2 → p1 = p2
  nodupChildren : ∀ p, p < c.allNodes.length →
    (c.allNodes.getD p gnodeDflt).children.Nodup
  rankLt : ∀ x p, childOf c.allNodes x p → rank p < rank x
  rJoint : c.g2joint.getD r UMAX ≠ UMAX
  onlyRoot : ∀ j, c.g2joint.getD j UMAX ≠ UMAX → j ≠ r →
    c.g2joint.getD (c.allParents.getD j UMAX) UMAX ≠ UMAX

/-- The invariant maintained by the traversal loop of `Animator::new`. -/
structure TravInv (c : BuildCtx) (numJoints : ℕ) (r : ℕ) (s : TravState) : Prop where
  g2iLen : s.g2i.length = c.allNodes.length
  parLen : s.parents.length = numJoints
  snLen : s.startNodes.length ≤ numJoints
  assigned : ∀ y, s.g2i.getD y UMAX ≠ UMAX →
    c.g2joint.getD y UMAX ≠ UMAX ∧ s.g2i.getD y UMAX < s.startNodes.length
  stackParent : ∀ x ∈ s.stack,
    c.g2joint.getD (c.allParents.getD x UMAX) UMAX ≠ UMAX →
    s.g2i.getD (c.allParents.getD x UMAX) UMAX ≠ UMAX
  disj : s.stack.Pairwise
    (fun a b => ∀ y, Reaches c.allNodes a y → Reaches c.allNodes b y → False)
  fresh : ∀ x ∈ s.stack, ∀ j, s.g2i.getD j UMAX ≠ UMAX → ¬ Reaches c.allNodes x j
  par0 : 0 < s.startNodes.length → s.parents.getD 0 UMAX = UMAX
  parLt : ∀ i, 0 < i → i < s.startNodes.length → s.parents.getD i UMAX < i
  parHi : ∀ i, s.startNodes.length ≤ i → s.parents.getD i UMAX = UMAX
  rootAssigned : 0 < s.startNodes.length → s.g2i.getD r UMAX ≠ UMAX

/-- The animator built by `animatorNew 8 wAllNodes wNodeIds wInv`. -/
def wBuiltAnimator : Animator :=
  { nodes := [⟨⟨0, 0, 0, 1⟩, ⟨0, 1, 0⟩, ⟨1, 1, 1⟩⟩, ⟨⟨0, 0, 0, 1⟩, ⟨0, 0, 1⟩, ⟨1, 1, 1⟩⟩],
    startNodes := [⟨⟨0, 0, 0, 1⟩, ⟨0, 1, 0⟩, ⟨1, 1, 1⟩⟩, ⟨⟨0, 0, 0, 1⟩, ⟨0, 0, 1⟩, ⟨1, 1, 1⟩⟩],
    inverseTransforms := [Transform.new, Transform.new],
    parents := [UMAX, 0],
    animations := [] }

/-- The global-id→internal-id mapping built by
`animatorNew 8 wAllNodes wNodeIds wInv`. -/
def wG2i : List ℕ := [UMAX, 0, 1]

/-- The skin-local→internal-id mapping built by
`animatorNew 8 wAllNodes wNodeIds wInv`. -/
def wJ2i : List ℕ := [0, 1]

/-- A concrete operation sequence used to witness reset idempotence. -/
def wOps : List AnimOp := [AnimOp.translateNode 0 ⟨1, 0, 0⟩]

/-- The result of applying `wOps` to `wBuiltAnimator` (the sums are kept
unevaluated so the definition is definitionally the loop's output). -/
def wMutatedAnimator : Animator :=
  { wBuiltAnimator with
    nodes := [⟨⟨0, 0, 0, 1⟩, ⟨0 + 1, 1 + 0, 0 + 0⟩, ⟨1, 1, 1⟩⟩,
      ⟨⟨0, 0, 0, 1⟩, ⟨0, 0, 1⟩, ⟨1, 1, 1⟩⟩] }

end KorEngine

namespace KorEngine

theorem vec3_add_x (a b : Vec3) : (a + b).x = a.x + b.x := rfl

theorem vec3_add_y (a b : Vec3) : (a + b).y = a.y + b.y := rfl

theorem vec3_add_z (a b : Vec3) : (a + b).z = a.z + b.z := rfl

theorem vec3_smul_x (a : Vec3) (c : ℚ) : (a * c).x = a.x * c := rfl

theorem vec3_smul_y (a : Vec3) (c : ℚ) : (a * c).y = a.y * c := rfl

theorem vec3_smul_z (a : Vec3) (c : ℚ) : (a * c).z = a.z * c := rfl

theorem quat_add_x (a b : Quaternion) : (a + b).x = a.x + b.x := rfl

theorem quat_add_y (a b : Quaternion) : (a + b).y = a.y + b.y := rfl

theorem quat_add_z (a b : Quaternion) : (a + b).z = a.z + b.z := rfl

theorem quat_add_w (a b : Quaternion) : (a + b).w = a.w + b.w := rfl

theorem quat_smul_x (a : Quaternion) (c : ℚ) : (a * c).x = a.x * c := rfl

theorem quat_smul_y (a : Quaternion) (c : ℚ) : (a * c).y = a.y * c := rfl

theorem quat_smul_z (a : Quaternion) (c : ℚ) : (a * c).z = a.z * c := rfl

theorem quat_smul_w (a : Quaternion) (c : ℚ) : (a * c).w = a.w * c := rfl

/-- Sanity link between `rowApply` and the source's `translate`: translating by
`offset` adds exactly `offset · rotation_scale` to the translation, i.e. the
translation of `translate(offset)` is `rowApply offset`. -/
theorem translate_translation_eq_rowApply (a : Transform) (offset : Fin 3 → ℚ) :
    (a.translate offset).translation = a.rowApply offset := by
  funext j
  fin_cases j <;>
    simp [Transform.translate, Transform.rowApply, Matrix.vecMul, Matrix.dotProduct,
      Fin.sum_univ_succ] <;> ring

/-- C7: the cubic Hermite interpolation of the source (identical formula in
`Vec3::cubic_interpolation` and `Quaternion::cubic_interpolation`) evaluates to
`v0` at `alpha = 0` and to `v1` at `alpha = 1`, for every pair of tangents and
every time interval: the Hermite basis guarantees the endpoint values. -/
theorem cubic_interpolation_endpoints (v0 v1 ot it : Vec3)
    (q0 q1 qot qit : Quaternion) (dt : ℚ) :
    Vec3.cubicInterpolation v0 v1 ot it dt 0 = v0 ∧
    Vec3.cubicInterpolation v0 v1 ot it dt 1 = v1 ∧
    Quaternion.cubicInterpolation q0 q1 qot qit dt 0 = q0 ∧
    Quaternion.cubicInterpolation q0 q1 qot qit dt 1 = q1 := by
  refine ⟨?_, ?_, ?_, ?_⟩ <;>
    · ext <;>
        simp [Vec3.cubicInterpolation, Quaternion.cubicInterpolation,
          vec3_add_x, vec3_add_y, vec3_add_z, vec3_smul_x, vec3_smul_y, vec3_smul_z,
          quat_add_x, quat_add_y, quat_add_z, quat_add_w,
          quat_smul_x, quat_smul_y, quat_smul_z, quat_smul_w] <;> ring

/-- C6: `Quaternion::linear_interpolation` computes `d = dot(q0,q1)`,
`angle = acos(|d|)`, `target = q1 * sign(d)`, `norm = sin(angle)`, and returns
the non-spherical blend `q0*(1-alpha) + target*alpha` when `norm < 0.1`, and the
spherical blend `q0*sin((1-alpha)*angle)/norm + target*sin(alpha*angle)/norm`
otherwise. -/
theorem quat_linear_interpolation_spec (F : RealFns) (q0 q1 : Quaternion) (alpha : ℚ) :
    Quaternion.linearInterpolation F q0 q1 alpha =
      (let d := q0.dot q1
       let angle := F.arccos |d|
       let target := q1 * fsign d
       let norm := F.sin angle
       if norm < 1 / 10 then
         q0 * (1 - alpha) + target * alpha
       else
         q0 * (F.sin ((1 - alpha) * angle) / norm)
           + target * (F.sin (alpha * angle) / norm)) := by
  simp only [Quaternion.linearInterpolation, Quaternion.realLinearInterpolation,
    SPERICAL_INTERPOLATION_LIMIT]

/-- C1 counterexample: at the concrete transforms `a` (a shear along x) and `b`
(a shear along y), `a.compose(b)` does not have rotation-scale block
`a.rotation_scale × b.rotation_scale`, its homogeneous matrix is not
`to_homogeneous(a) × to_homogeneous(b)`, and applying it to the row vector
`(1,0,0)` is not "apply `a`, then `b`". -/
theorem compose_claim_counterexample :
    ((Transform.mk !![1, 1, 0; 0, 1, 0; 0, 0, 1] ![0, 0, 0]).compose
        (Transform.mk !![1, 0, 0; 1, 1, 0; 0, 0, 1] ![0, 0, 0])).rotationScale ≠
      (Transform.mk !![1, 1, 0; 0, 1, 0; 0, 0, 1] ![0, 0, 0]).rotationScale *
        (Transform.mk !![1, 0, 0; 1, 1, 0; 0, 0, 1] ![0, 0, 0]).rotationScale ∧
    ((Transform.mk !![1, 1, 0; 0, 1, 0; 0, 0, 1] ![0, 0, 0]).compose
        (Transform.mk !![1, 0, 0; 1, 1, 0; 0, 0, 1] ![0, 0, 0])).toHomogeneous ≠
      (Transform.mk !![1, 1, 0; 0, 1, 0; 0, 0, 1] ![0, 0, 0]).toHomogeneous *
        (Transform.mk !![1, 0, 0; 1, 1, 0; 0, 0, 1] ![0, 0, 0]).toHomogeneous ∧
    ((Transform.mk !![1, 1, 0; 0, 1, 0; 0, 0, 1] ![0, 0, 0]).compose
        (Transform.mk !![1, 0, 0; 1, 1, 0; 0, 0, 1] ![0, 0, 0])).rowApply ![1, 0, 0] ≠
      (Transform.mk !![1, 0, 0; 1, 1, 0; 0, 0, 1] ![0, 0, 0]).rowApply
        ((Transform.mk !![1, 1, 0; 0, 1, 0; 0, 0, 1] ![0, 0, 0]).rowApply ![1, 0, 0]) := by
  refine ⟨fun h => ?_, fun h => ?_, fun h => ?_⟩
  · have := congrFun (congrFun h 0) 0
    simp [Transform.compose, Matrix.mul_apply, Fin.sum_univ_succ] at this
  · have := congrFun (congrFun h 0) 0
    simp [Transform.compose, Transform.toHomogeneous, Matrix.mul_apply,
      Fin.sum_univ_succ] at this
  · have := congrFun h 0
    simp [Transform.compose, Transform.rowApply, Matrix.vecMul, Matrix.dotProduct,
      Fin.sum_univ_succ] at this

theorem get?_eq_some_getD {α : Type} :
    ∀ (l : List α) (i : ℕ), i < l.length → ∀ d, l.get? i = some (l.getD i d)
  | _ :: _, 0, _, _ => rfl
  | _ :: l, i + 1, h, d => get?_eq_some_getD l i (by simpa using h) d

/-- The interval search of `AnimationChannel::get_index` is correct: starting
from a bracket `ts[lo] ≤ t < ts[hi]` on a strictly increasing list, it lands on
an adjacent bracket `ts[res] ≤ t < ts[res+1]` with `lo ≤ res < hi`. -/
theorem getIndexAux_spec :
    ∀ (n : ℕ) (ts : List ℚ) (t : ℚ) (lo hi : ℕ), hi - lo ≤ n → lo < hi →
      hi < ts.length →
      (∀ j, j < ts.length → ∀ i, i < j → ts.getD i 0 < ts.getD j 0) →
      ts.getD lo 0 ≤ t → t < ts.getD hi 0 →
      lo ≤ getIndexAux ts t lo hi ∧ getIndexAux ts t lo hi + 1 ≤ hi ∧
        ts.getD (getIndexAux ts t lo hi) 0 ≤ t ∧
        t < ts.getD (getIndexAux ts t lo hi + 1) 0 := by
  intro n
  induction n with
  | zero => intro ts t lo hi h1 h2; omega
  | succ n ih =>
    intro ts t lo hi hn hlt hhi hmono hlo hhit
    rw [getIndexAux.eq_def]
    by_cases hmid : lo + 1 < hi
    · simp only [hmid, dif_pos]
      by_cases hgt : ts.getD ((lo + hi) / 2) 0 > t
      · simp only [hgt, if_pos]
        have hspec := ih ts t lo ((lo + hi) / 2) (by omega) (by omega) (by omega)
          hmono hlo hgt
        exact ⟨hspec.1, by omega, hspec.2.2⟩
      · simp only [hgt, if_neg, not_false_iff]
        push_neg at hgt
        have hspec := ih ts t ((lo + hi) / 2) hi (by omega) (by omega) hhi
          hmono hgt hhit
        exact ⟨by omega, hspec.2.1, hspec.2.2⟩
    · simp only [hmid, dif_neg, not_false_iff]
      have : hi = lo + 1 := by omega
      subst this
      exact ⟨le_refl _, le_refl _, hlo, hhit⟩

/-- C4: on a channel with a non-empty strictly increasing timestamp list whose
`t_min`/`t_max` cache its first/last timestamp, `compute(t)` returns the sampler
value at keyframe 0 whenever `t ≤ t_min` and the value at the last keyframe
whenever `t ≥ t_max`, independent of the interpolation mode: no extrapolation on
either side. -/
theorem channel_compute_clamps (F : RealFns) (ch : AnimationChannel)
    (hne : ch.timestamps ≠ [])
    (hmono : ∀ j, j < ch.timestamps.length → ∀ i, i < j →
      ch.timestamps.getD i 0 < ch.timestamps.getD j 0)
    (hmin : ch.tMin = ch.timestamps.getD 0 0)
    (hmax : ch.tMax = ch.timestamps.getD (ch.timestamps.length - 1) 0) :
    (∀ t, t ≤ ch.tMin →
      ch.compute F t = ch.animatedProperty.getValue 0 ch.nodeId) ∧
    (∀ t, ch.tMax ≤ t →
      ch.compute F t =
        ch.animatedProperty.getValue (ch.timestamps.length - 1) ch.nodeId) := by
  have hlen : 0 < ch.timestamps.length := List.length_pos.mpr hne
  constructor
  · intro t ht
    rw [AnimationChannel.compute, if_pos ht]
  · intro t ht
    by_cases h1 : t ≤ ch.tMin
    · rw [AnimationChannel.compute, if_pos h1]
      have hone : ch.timestamps.length = 1 := by
        by_contra hlen2
        have h2 : 2 ≤ ch.timestamps.length := by omega
        have := hmono (ch.timestamps.length - 1) (by omega) 0 (by omega)
        rw [← hmin, ← hmax] at this
        linarith
      rw [hone]
    · rw [AnimationChannel.compute, if_neg h1, if_pos ht]

/-- C5: on a channel with at least two strictly increasing timestamps and
`t_min < t < t_max`, the interval search terminates on the unique index `i`
with `timestamps[i] ≤ t < timestamps[i+1]`, and `compute(t)` delegates to
`Sampler::interpolate_value(i, t, timestamps[i], timestamps[i+1])` through the
channel's animated property. -/
theorem channel_compute_search (F : RealFns) (ch : AnimationChannel)
    (hlen : 2 ≤ ch.timestamps.length)
    (hmono : ∀ j, j < ch.timestamps.length → ∀ i, i < j →
      ch.timestamps.getD i 0 < ch.timestamps.getD j 0)
    (hmin : ch.tMin = ch.timestamps.getD 0 0)
    (hmax : ch.tMax = ch.timestamps.getD (ch.timestamps.length - 1) 0)
    (t : ℚ) (ht1 : ch.tMin < t) (ht2 : t < ch.tMax) :
    (ch.getIndex t + 1 < ch.timestamps.length ∧
      ch.timestamps.getD (ch.getIndex t) 0 ≤ t ∧
      t < ch.timestamps.getD (ch.getIndex t + 1) 0) ∧
    (∀ j, j + 1 < ch.timestamps.length → ch.timestamps.getD j 0 ≤ t →
      t < ch.timestamps.getD (j + 1) 0 → j = ch.getIndex t) ∧
    ch.compute F t =
      ch.animatedProperty.interpolateValue F (ch.getIndex t) ch.nodeId t
        (ch.timestamps.getD (ch.getIndex t) 0)
        (ch.timestamps.getD (ch.getIndex t + 1) 0) := by
  have hspec := getIndexAux_spec (ch.timestamps.length - 1) ch.timestamps t 0
    (ch.timestamps.length - 1) (by omega) (by omega) (by omega) hmono
    (by rw [← hmin]; exact le_of_lt ht1) (by rw [← hmax]; exact ht2)
  rw [← AnimationChannel.getIndex] at hspec
  obtain ⟨-, hup, hle, hgt⟩ := hspec
  have hbound : ch.getIndex t + 1 < ch.timestamps.length := by omega
  refine ⟨⟨hbound, hle, hgt⟩, ?_, ?_⟩
  · intro j hj hjle hjgt
    rcases lt_trichotomy j (ch.getIndex t) with hc | hc | hc
    · exfalso
      have hj1 : ch.timestamps.getD (j + 1) 0 ≤ ch.timestamps.getD (ch.getIndex t) 0 := by
        rcases Nat.lt_or_ge (j + 1) (ch.getIndex t) with hh | hh
        · exact le_of_lt (hmono _ (by omega) _ hh)
        · have : j + 1 = ch.getIndex t := by omega
          rw [this]
      linarith
    · exact hc
    · exfalso
      have hi1 : ch.timestamps.getD (ch.getIndex t + 1) 0 ≤ ch.timestamps.getD j 0 := by
        rcases Nat.lt_or_ge (ch.getIndex t + 1) j with hh | hh
        · exact le_of_lt (hmono _ (by omega) _ hh)
        · have : ch.getIndex t + 1 = j := by omega
          rw [this]
      linarith
  · rw [AnimationChannel.compute, if_neg (by linarith), if_neg (by linarith)]
    simp only [get?_eq_some_getD ch.timestamps (ch.getIndex t) (by omega) 0,
      get?_eq_some_getD ch.timestamps (ch.getIndex t + 1) hbound 0]

theorem getD_append_lt {α : Type} :
    ∀ (l l' : List α) (j : ℕ) (d : α), j < l.length →
      (l ++ l').getD j d = l.getD j d
  | _ :: _, _, 0, _, _ => rfl
  | _ :: l, l', j + 1, d, h => getD_append_lt l l' j d (by simpa using h)

theorem getD_append_at {α : Type} :
    ∀ (l : List α) (x : α) (d : α), (l ++ [x]).getD l.length d = x
  | [], _, _ => rfl
  | _ :: l, x, d => getD_append_at l x d

theorem cumSpec_zero (a : Animator) :
    a.cumSpec 0 =
      Transform.fromTrs (a.nodes.getD 0 nodeDflt).translation
        (a.nodes.getD 0 nodeDflt).rotation (a.nodes.getD 0 nodeDflt).scale := by
  simp [Animator.cumSpec]

theorem cumSpec_succ (a : Animator) (i : ℕ) (h : a.parents.getD (i + 1) 0 ≤ i) :
    a.cumSpec (i + 1) =
      (a.cumSpec (a.parents.getD (i + 1) 0)).compose
        (Transform.fromTrs (a.nodes.getD (i + 1) nodeDflt).translation
          (a.nodes.getD (i + 1) nodeDflt).rotation
          (a.nodes.getD (i + 1) nodeDflt).scale) := by
  rw [Animator.cumSpec]
  rw [min_eq_left h]

/-- Loop invariant proof for `Animator::compute_transforms`: if the prefixes of
`cumulated_transforms` and `result` already satisfy the recurrence, the loop
completes and the recurrence holds for every joint. -/
theorem ctGo_spec (a : Animator)
    (hp : ∀ i, i < a.nodes.length → 1 ≤ i → a.parents.getD i 0 < i)
    (hpl : a.nodes.length ≤ a.parents.length)
    (hil : a.nodes.length ≤ a.inverseTransforms.length) :
    ∀ (k i : ℕ) (cum res : List Transform),
      a.nodes.length - i ≤ k → 1 ≤ i → i ≤ a.nodes.length →
      cum.length = i → res.length = i →
      (∀ j, j < i → cum.getD j Transform.new = a.cumSpec j) →
      (∀ j, j < i → res.getD j Transform.new =
        (a.cumSpec j).compose (a.inverseTransforms.getD j Transform.new)) →
      ∃ r, a.ctGo i cum res = some r ∧ r.length = a.nodes.length ∧
        (∀ j, j < a.nodes.length → r.getD j Transform.new =
          (a.cumSpec j).compose (a.inverseTransforms.getD j Transform.new)) := by
  intro k
  induction k with
  | zero =>
    intro i cum res hk h1 h2 hcl hrl hcum hres
    have hi : i = a.nodes.length := by omega
    refine ⟨res, ?_, by omega, fun j hj => hres j (by omega)⟩
    rw [Animator.ctGo.eq_def, dif_neg (by omega)]
  | succ k ih =>
    intro i cum res hk h1 h2 hcl hrl hcum hres
    by_cases hi : i < a.nodes.length
    · rw [Animator.ctGo.eq_def, dif_pos hi]
      simp only [get?_eq_some_getD a.nodes i hi nodeDflt,
        get?_eq_some_getD a.parents i (by omega) 0,
        get?_eq_some_getD a.inverseTransforms i (by omega) Transform.new]
      have hplt : a.parents.getD i 0 < i := hp i hi h1
      simp only [get?_eq_some_getD cum (a.parents.getD i 0) (by omega) Transform.new]
      obtain ⟨j0, rfl⟩ : ∃ j0, i = j0 + 1 := ⟨i - 1, by omega⟩
      have hcomp :
          (cum.getD (a.parents.getD (j0 + 1) 0) Transform.new).compose
            (Transform.fromTrs (a.nodes.getD (j0 + 1) nodeDflt).translation
              (a.nodes.getD (j0 + 1) nodeDflt).rotation
              (a.nodes.getD (j0 + 1) nodeDflt).scale) = a.cumSpec (j0 + 1) := by
        rw [hcum _ hplt, cumSpec_succ a j0 (by omega)]
      have hstep := ih (j0 + 2) (cum ++ [a.cumSpec (j0 + 1)])
        (res ++ [(a.cumSpec (j0 + 1)).compose
          (a.inverseTransforms.getD (j0 + 1) Transform.new)])
        (by omega) (by omega) (by omega)
        (by simp [hcl]) (by simp [hrl])
        (by
          intro j hj
          rcases Nat.lt_or_ge j (j0 + 1) with hj2 | hj2
          · rw [getD_append_lt _ _ _ _ (by omega), hcum j hj2]
          · have : j = j0 + 1 := by omega
            subst this
            have := getD_append_at cum (a.cumSpec (j0 + 1)) Transform.new
            rw [hcl] at this
            exact this)
        (by
          intro j hj
          rcases Nat.lt_or_ge j (j0 + 1) with hj2 | hj2
          · rw [getD_append_lt _ _ _ _ (by omega), hres j hj2]
          · have : j = j0 + 1 := by omega
            subst this
            have := getD_append_at res ((a.cumSpec (j0 + 1)).compose
              (a.inverseTransforms.getD (j0 + 1) Transform.new)) Transform.new
            rw [hrl] at this
            exact this)
      rw [hcomp]
      exact hstep
    · have hieq : i = a.nodes.length := by omega
      refine ⟨res, ?_, by omega, fun j hj => hres j (by omega)⟩
      rw [Animator.ctGo.eq_def, dif_neg (by omega)]

/-- C2: on an animator with at least one joint whose parent links point
strictly downwards, `compute_transforms` succeeds, returns exactly one entry
per joint in internal-id order, entry `j` being `cumulated[j]` composed with
`inverse_transforms[j]`, where `cumulated` satisfies `cumulated[0] =
from_trs(node 0)` and `cumulated[i] = cumulated[parents[i]].compose(local_i)`
for `i > 0`. -/
theorem compute_transforms_spec (a : Animator)
    (h0 : a.nodes ≠ [])
    (hp : ∀ i, i < a.nodes.length → 1 ≤ i → a.parents.getD i 0 < i)
    (hpl : a.nodes.length ≤ a.parents.length)
    (hil : a.nodes.length ≤ a.inverseTransforms.length) :
    ∃ r, a.computeTransforms = some r ∧ r.length = a.nodes.length ∧
      (∀ j, j < a.nodes.length → r.getD j Transform.new =
        (a.cumSpec j).compose (a.inverseTransforms.getD j Transform.new)) ∧
      a.cumSpec 0 =
        Transform.fromTrs (a.nodes.getD 0 nodeDflt).translation
          (a.nodes.getD 0 nodeDflt).rotation (a.nodes.getD 0 nodeDflt).scale ∧
      (∀ i, i < a.nodes.length → 1 ≤ i →
        a.cumSpec i = (a.cumSpec (a.parents.getD i 0)).compose
          (Transform.fromTrs (a.nodes.getD i nodeDflt).translation
            (a.nodes.getD i nodeDflt).rotation (a.nodes.getD i nodeDflt).scale)) := by
  have hlen : 0 < a.nodes.length := List.length_pos.mpr h0
  have hrec : ∀ i, i < a.nodes.length → 1 ≤ i →
      a.cumSpec i = (a.cumSpec (a.parents.getD i 0)).compose
        (Transform.fromTrs (a.nodes.getD i nodeDflt).translation
          (a.nodes.getD i nodeDflt).rotation (a.nodes.getD i nodeDflt).scale) := by
    intro i hi h1
    obtain ⟨j0, rfl⟩ : ∃ j0, i = j0 + 1 := ⟨i - 1, by omega⟩
    exact cumSpec_succ a j0 (by have := hp (j0 + 1) hi h1; omega)
  obtain ⟨r, hr, hrl, hrp⟩ := ctGo_spec a hp hpl hil a.nodes.length 1
    [a.cumSpec 0]
    [(a.cumSpec 0).compose (a.inverseTransforms.getD 0 Transform.new)]
    (by omega) (le_refl 1) hlen rfl rfl
    (by intro j hj; interval_cases j; rfl)
    (by intro j hj; interval_cases j; rfl)
  refine ⟨r, ?_, hrl, hrp, cumSpec_zero a, hrec⟩
  rw [Animator.computeTransforms,
    get?_eq_some_getD a.nodes 0 hlen nodeDflt,
    get?_eq_some_getD a.inverseTransforms 0 (by omega) Transform.new]
  dsimp only
  rw [← cumSpec_zero a]
  exact hr

theorem getD_replicate_self {n i : ℕ} {v : ℕ} : (List.replicate n v).getD i v = v := by
  induction n generalizing i with
  | zero => rfl
  | succ n ih => cases i with
    | zero => rfl
    | succ i => exact ih

theorem getD_of_length_le {α : Type} (l : List α) (i : ℕ) (d : α)
    (h : l.length ≤ i) : l.getD i d = d := by
  induction l generalizing i with
  | nil => rfl
  | cons a l ih => cases i with
    | zero => simp at h
    | succ i => exact ih i (by simpa using h)

theorem getD_set_self {α : Type} (l : List α) (i : ℕ) (v d : α) (h : i < l.length) :
    (l.set i v).getD i d = v := by
  induction l generalizing i with
  | nil => simp at h
  | cons a l ih => cases i with
    | zero => rfl
    | succ i => exact ih i (by simpa using h)

theorem getD_set_ne {α : Type} (l : List α) (i j : ℕ) (v d : α) (h : i ≠ j) :
    (l.set i v).getD j d = l.getD j d := by
  induction l generalizing i j with
  | nil => rfl
  | cons a l ih =>
    cases i with
    | zero => cases j with
      | zero => exact absurd rfl h
      | succ j => rfl
    | succ i => cases j with
      | zero => rfl
      | succ j => exact ih i j (by omega)

theorem setOpt_some {α : Type} {l l' : List α} {i : ℕ} {x : α}
    (h : setOpt l i x = some l') : i < l.length ∧ l' = l.set i x := by
  rw [setOpt] at h
  split at h
  · exact ⟨by assumption, (Option.some.injEq _ _).mp h |>.symm⟩
  · exact absurd h (by simp)

theorem findRoot_stop {allParents : List ℕ} :
    ∀ {fuel x r : ℕ}, findRoot allParents fuel x = some r →
      allParents.get? r = some UMAX := by
  intro fuel
  induction fuel with
  | zero => intro x r h; exact absurd h (by simp [findRoot])
  | succ fuel ih =>
    intro x r h
    rw [findRoot] at h
    simp only [Option.bind_eq_bind, Option.bind_eq_some] at h
    obtain ⟨p, hp, h⟩ := h
    by_cases hu : p = UMAX
    · rw [if_pos hu] at h
      cases h
      rw [hp, hu]
    · rw [if_neg hu] at h
      exact ih h

theorem animate_fields {F : RealFns} {a : Animator} {id : ℕ} {t : ℚ} {a' : Animator}
    (h : Animator.animate F a id t = some a') :
    a'.startNodes = a.startNodes ∧ a'.inverseTransforms = a.inverseTransforms ∧
    a'.parents = a.parents ∧ a'.animations = a.animations := by
  simp only [Animator.animate, Option.bind_eq_bind, Option.bind_eq_some,
    Option.some.injEq] at h
  obtain ⟨anim, -, ns, -, h⟩ := h
  subst h
  exact ⟨rfl, rfl, rfl, rfl⟩

/-- None of the four pose-mutating operations changes anything but the current
pose: `start_nodes`, `inverse_transforms`, `parents` and `animations` are
untouched. -/
theorem applyOp_fields (F : RealFns) (a : Animator) (op : AnimOp) (a' : Animator)
    (h : applyOp F a op = some a') :
    a'.startNodes = a.startNodes ∧ a'.inverseTransforms = a.inverseTransforms ∧
    a'.parents = a.parents ∧ a'.animations = a.animations := by
  cases op with
  | animate id t => exact animate_fields h
  | scaleNode n v =>
    simp only [applyOp, Animator.scaleNode] at h
    split at h
    · simp only [Option.some.injEq] at h
      subst h
      exact ⟨rfl, rfl, rfl, rfl⟩
    · exact absurd h (by simp)
  | translateNode n v =>
    simp only [applyOp, Animator.translateNode] at h
    split at h
    · simp only [Option.some.injEq] at h
      subst h
      exact ⟨rfl, rfl, rfl, rfl⟩
    · exact absurd h (by simp)
  | rotateNode n q =>
    simp only [applyOp, Animator.rotateNode] at h
    split at h
    · simp only [Option.some.injEq] at h
      subst h
      exact ⟨rfl, rfl, rfl, rfl⟩
    · exact absurd h (by simp)

theorem applyOps_fields (F : RealFns) :
    ∀ (ops : List AnimOp) (a a' : Animator), applyOps F ops a = some a' →
      a'.startNodes = a.startNodes ∧ a'.inverseTransforms = a.inverseTransforms ∧
      a'.parents = a.parents ∧ a'.animations = a.animations
  | [], a, a', h => by
    simp only [applyOps, Option.some.injEq] at h
    subst h
    exact ⟨rfl, rfl, rfl, rfl⟩
  | op :: rest, a, a', h => by
    simp only [applyOps, Option.bind_eq_bind, Option.bind_eq_some] at h
    obtain ⟨a1, h1, h2⟩ := h
    obtain ⟨e1, e2, e3, e4⟩ := applyOp_fields F a op a1 h1
    obtain ⟨f1, f2, f3, f4⟩ := applyOps_fields F rest a1 a' h2
    exact ⟨f1.trans e1, f2.trans e2, f3.trans e3, f4.trans e4⟩

/-- Destructuring of a successful `animatorNew` run into its pipeline stages. -/
theorem animatorNew_shape {fuel : ℕ} {allNodes : List GNode} {nodeIds : List ℕ}
    {invOpt : Option (List Transform)} {a : Animator} {g2i j2i : List ℕ}
    (h : animatorNew fuel allNodes nodeIds invOpt = some (a, g2i, j2i)) :
    ∃ (g2joint allParents : List ℕ) (first root : ℕ) (sFinal : TravState),
      fillG2J nodeIds 0 (List.replicate allNodes.length UMAX) = some g2joint ∧
      fillParents allNodes 0 (List.replicate allNodes.length UMAX) = some allParents ∧
      nodeIds.get? 0 = some first ∧
      findRoot allParents fuel first = some root ∧
      traverse ⟨allNodes, g2joint, allParents, invOpt⟩ fuel
        ⟨[root], List.replicate allNodes.length UMAX,
          List.replicate nodeIds.length UMAX, List.replicate nodeIds.length UMAX,
          [], []⟩ = some sFinal ∧
      a = ⟨sFinal.startNodes, sFinal.startNodes, sFinal.invTs, sFinal.parents, []⟩ ∧
      g2i = sFinal.g2i ∧ j2i = sFinal.j2i := by
  simp only [animatorNew, Option.bind_eq_bind, Option.bind_eq_some,
    Option.some.injEq] at h
  obtain ⟨g2joint, h1, allParents, h2, first, h3, root, h4, sFinal, h5, h6⟩ := h
  refine ⟨g2joint, allParents, first, root, sFinal, h1, h2, h3, h4, h5, ?_, ?_, ?_⟩
  · exact (congrArg Prod.fst h6).symm
  · exact (congrArg (fun p => p.2.1) h6).symm
  · exact (congrArg (fun p => p.2.2) h6).symm

/-- C8: for an animator freshly built by `Animator::new` and any sequence of
`animate`/`scale_node`/`translate_node`/`rotate_node` calls, `reset()` followed
by `compute_transforms()` computes exactly what `compute_transforms()` computes
on the freshly built animator (which has had no `animate` call): `reset`
restores the rest pose and no operation touched any other field. -/
theorem reset_idempotence (fuel : ℕ) (allNodes : List GNode) (nodeIds : List ℕ)
    (invOpt : Option (List Transform)) (a : Animator) (g2i j2i : List ℕ)
    (hnew : animatorNew fuel allNodes nodeIds invOpt = some (a, g2i, j2i))
    (F : RealFns) (ops : List AnimOp) (a' : Animator)
    (hops : applyOps F ops a = some a') :
    a'.reset.computeTransforms = a.computeTransforms ∧ a'.reset = a := by
  obtain ⟨g2j0, ap0, f0, r0, s0, -, -, -, -, -, ha, -, -⟩ := animatorNew_shape hnew
  obtain ⟨e1, e2, e3, e4⟩ := applyOps_fields F ops a a' hops
  have hra : a'.reset = a := by
    rw [Animator.reset]
    subst ha
    cases a'
    simp_all
  exact ⟨by rw [hra], hra⟩

/-- C10: when the discovered traversal root is itself a skin joint, the builder
reads `all_parents[root] = usize::MAX` and indexes `global_id_to_inner` with it,
which is out of bounds: `Animator::new` panics (`none` in the model). -/
theorem root_joint_panics (fuel : ℕ) (allNodes : List GNode) (nodeIds : List ℕ)
    (invOpt : Option (List Transform)) (g2joint allParents : List ℕ)
    (first root : ℕ)
    (hg2j : fillG2J nodeIds 0 (List.replicate allNodes.length UMAX) = some g2joint)
    (hap : fillParents allNodes 0 (List.replicate allNodes.length UMAX) = some allParents)
    (hfirst : nodeIds.get? 0 = some first)
    (hroot : findRoot allParents fuel first = some root)
    (hjoint : g2joint.getD root UMAX < UMAX)
    (hg2jLen : g2joint.length = allNodes.length)
    (hLen : allNodes.length < UMAX) :
    animatorNew fuel allNodes nodeIds invOpt = none := by
  rw [animatorNew]
  simp only [Option.bind_eq_bind, hg2j, hap, hfirst, hroot, Option.some_bind]
  suffices hsuff : traverse ⟨allNodes, g2joint, allParents, invOpt⟩ fuel
      ⟨[root], List.replicate allNodes.length UMAX,
        List.replicate nodeIds.length UMAX, List.replicate nodeIds.length UMAX,
        [], []⟩ = none by
    rw [hsuff]
    rfl
  have hrlen : root < allNodes.length := by
    by_contra hge
    rw [getD_of_length_le g2joint root UMAX (by omega)] at hjoint
    omega
  have hget : allParents.get? root = some UMAX := findRoot_stop hroot
  have hstep : travStep ⟨allNodes, g2joint, allParents, invOpt⟩ root []
      ⟨[root], List.replicate allNodes.length UMAX,
        List.replicate nodeIds.length UMAX, List.replicate nodeIds.length UMAX,
        [], []⟩ = none := by
    rw [travStep]
    simp only [Option.bind_eq_bind]
    rw [get?_eq_some_getD g2joint root (by omega) UMAX,
      get?_eq_some_getD allNodes root hrlen gnodeDflt]
    simp only [Option.some_bind]
    rw [if_pos hjoint]
    simp only [List.length_nil]
    cases hset : setOpt (List.replicate nodeIds.length UMAX) (g2joint.getD root UMAX) 0 with
    | none => rfl
    | some j2i1 =>
      simp only [Option.some_bind]
      cases hset2 : setOpt (List.replicate allNodes.length UMAX) root 0 with
      | none => rfl
      | some g2i1 =>
        simp only [Option.some_bind]
        rw [hget]
        simp only [Option.some_bind]
        have hg2i1len : g2i1.length = allNodes.length := by
          obtain ⟨-, hval⟩ := setOpt_some hset2
          rw [hval]
          simp
        have hnone : g2i1.get? UMAX = none := by
          rw [List.get?_eq_none]
          omega
        rw [hnone]
        rfl
  cases fuel with
  | zero => rfl
  | succ fuel =>
    rw [traverse]
    simp only [Option.bind_eq_bind]
    rw [hstep]
    rfl

/-- C9 counterexample: on the concrete input `dAllNodes`/`dNodeIds`, whose
second joint is disconnected from the discovered root (a malformed hierarchy in
the spec's sense), `Animator::new` does not fail: it silently returns a partial
animator with one node for two skin joints. -/
theorem malformed_not_failfast_counterexample :
    (animatorNew 8 dAllNodes dNodeIds dInv).isSome = true ∧
    (animatorNew 8 dAllNodes dNodeIds dInv).map (fun x => x.1.nodes.length) = some 1 ∧
    dNodeIds.length = 2 := by
  refine ⟨?_, ?_, rfl⟩ <;> decide

/-- C9 amended: a channel with an unsupported animated-property kind (morph
targets) is skipped by `load_channel` — the clip keeps exactly its other
channels — while a joint disconnected from the discovered root does NOT cause a
hard failure: construction silently yields a partial animator. -/
theorem malformed_channel_handling :
    (∀ (ch : GltfChannel) (joints mapping : List ℕ) (ws : List ℚ),
      ch.outputs = GltfOutputs.morphTargetWeights ws →
      loadChannel ch joints mapping = none) ∧
    (∀ (pre post : List GltfChannel) (ch : GltfChannel) (joints mapping : List ℕ)
        (ws : List ℚ), ch.outputs = GltfOutputs.morphTargetWeights ws →
      loadAnimation (pre ++ ch :: post) joints mapping =
        ⟨(loadAnimation pre joints mapping).channels ++
          (loadAnimation post joints mapping).channels⟩) ∧
    (animatorNew 8 dAllNodes dNodeIds dInv).map
      (fun x => (x.1.nodes.length, x.1.parents.length)) = some (1, 2) := by
  have hskip : ∀ (ch : GltfChannel) (joints mapping : List ℕ) (ws : List ℚ),
      ch.outputs = GltfOutputs.morphTargetWeights ws →
      loadChannel ch joints mapping = none := by
    intro ch joints mapping ws hout
    rw [loadChannel]
    split
    · simp only [hout, Option.bind_eq_bind]
      cases mapping.get? ch.targetNode <;>
        cases h0 : ch.timestamps.get? 0 <;>
          cases h1 : ch.timestamps.get? (ch.timestamps.length - 1) <;> simp
    · rfl
  refine ⟨hskip, ?_, by decide⟩
  intro pre post ch joints mapping ws hout
  rw [loadAnimation, loadAnimation, loadAnimation]
  rw [List.filterMap_append, List.filterMap_cons]
  rw [hskip ch joints mapping ws hout]

theorem get?_some_lt {α : Type} {l : List α} {i : ℕ} {x : α}
    (h : l.get? i = some x) : i < l.length := by
  by_contra hge
  rw [List.get?_eq_none.mpr (by omega)] at h
  exact absurd h (by simp)

theorem get?_some_getD {α : Type} {l : List α} {i : ℕ} {x : α} (d : α)
    (h : l.get? i = some x) : x = l.getD i d := by
  have hlt := get?_some_lt h
  rw [get?_eq_some_getD l i hlt d] at h
  exact ((Option.some.injEq _ _).mp h).symm

theorem foldl_cons_eq {α : Type} :
    ∀ (l acc : List α), l.foldl (fun st ch => ch :: st) acc = l.reverse ++ acc
  | [], _ => rfl
  | a :: l, acc => by
    rw [List.foldl_cons, foldl_cons_eq l (a :: acc), List.reverse_cons,
      List.append_assoc, List.singleton_append]

theorem reaches_trans {an : List GNode} {a b c : ℕ}
    (h1 : Reaches an a b) (h2 : Reaches an b c) : Reaches an a c := by
  induction h2 with
  | refl => exact h1
  | tail _ e ih => exact Reaches.tail ih e

theorem reaches_rank_le {an : List GNode} {rank : ℕ → ℕ}
    (hrank : ∀ x p, childOf an x p → rank p < rank x) {a b : ℕ}
    (h : Reaches an a b) : rank a ≤ rank b := by
  induction h with
  | refl => exact le_refl _
  | tail _ e ih => have := hrank _ _ e; omega

theorem child_not_reaches {an : List GNode} {rank : ℕ → ℕ}
    (hrank : ∀ x p, childOf an x p → rank p < rank x) {c p : ℕ}
    (e : childOf an c p) (h : Reaches an c p) : False := by
  have h1 := reaches_rank_le hrank h
  have h2 := hrank _ _ e
  omega

theorem reaches_meet {an : List GNode}
    (uniq : ∀ x p1 p2, childOf an x p1 → childOf an x p2 → p1 = p2) :
    ∀ {a y : ℕ}, Reaches an a y → ∀ {b : ℕ}, Reaches an b y →
      Reaches an a b ∨ Reaches an b a := by
  intro a y h1
  induction h1 with
  | refl => intro b h2; exact Or.inr h2
  | tail h1' e1 ih =>
    intro b h2
    cases h2 with
    | refl => exact Or.inl (Reaches.tail h1' e1)
    | tail h2' e2 =>
      have he := uniq _ _ _ e1 e2
      subst he
      exact ih h2'

theorem siblings_disjoint {an : List GNode} {rank : ℕ → ℕ}
    (uniq : ∀ x p1 p2, childOf an x p1 → childOf an x p2 → p1 = p2)
    (hrank : ∀ x p, childOf an x p → rank p < rank x) {c1 c2 p : ℕ}
    (e1 : childOf an c1 p) (e2 : childOf an c2 p) (hne : c1 ≠ c2) :
    ∀ y, Reaches an c1 y → Reaches an c2 y → False := by
  intro y h1 h2
  rcases reaches_meet uniq h1 h2 with h | h
  · cases h with
    | refl => exact hne rfl
    | tail h' e' =>
      have he := uniq _ _ _ e2 e'
      subst he
      exact child_not_reaches hrank e1 h'
  · cases h with
    | refl => exact hne rfl
    | tail h' e' =>
      have he := uniq _ _ _ e1 e'
      subst he
      exact child_not_reaches hrank e2 h'

/-- Correctness facts for the `global_id_to_joint` filling pass. -/
theorem fillG2J_facts :
    ∀ (ids : List ℕ) (i0 : ℕ) (acc acc' : List ℕ),
      fillG2J ids i0 acc = some acc' →
      acc'.length = acc.length ∧
      (∀ y ∈ ids, y < acc.length) ∧
      (∀ y, acc'.getD y UMAX ≠ UMAX → y ∈ ids ∨ acc.getD y UMAX ≠ UMAX) ∧
      (∀ y, y ∉ ids → acc'.getD y UMAX = acc.getD y UMAX) ∧
      (∀ y ∈ ids, acc'.getD y UMAX < i0 + ids.length)
  | [], i0, acc, acc', h => by
    simp only [fillG2J, Option.some.injEq] at h
    subst h
    exact ⟨rfl, by simp, fun y hy => Or.inr hy, fun y _ => rfl, by simp⟩
  | id :: rest, i0, acc, acc', h => by
    simp only [fillG2J, Option.bind_eq_bind, Option.bind_eq_some] at h
    obtain ⟨acc1, hset, hrec⟩ := h
    obtain ⟨hlt, hval⟩ := setOpt_some hset
    subst hval
    obtain ⟨L1, L2, L3, L4, L5⟩ := fillG2J_facts rest (i0 + 1) (acc.set id i0) acc' hrec
    refine ⟨by simpa using L1, ?_, ?_, ?_, ?_⟩
    · intro y hy
      rcases List.mem_cons.mp hy with hy | hy
      · omega
      · have := L2 y hy
        simpa using this
    · intro y hy
      rcases L3 y hy with hy2 | hy2
      · exact Or.inl (List.mem_cons_of_mem _ hy2)
      · by_cases hid : y = id
        · exact Or.inl (hid ▸ List.mem_cons_self _ _)
        · rw [getD_set_ne _ _ _ _ _ (fun he => hid he.symm)] at hy2
          exact Or.inr hy2
    · intro y hy
      have hyr : y ∉ rest := fun hc => hy (List.mem_cons_of_mem _ hc)
      have hyi : y ≠ id := fun hc => hy (hc ▸ List.mem_cons_self _ _)
      rw [L4 y hyr, getD_set_ne _ _ _ _ _ (fun he => hyi he.symm)]
    · intro y hy
      rcases List.mem_cons.mp hy with hy | hy
      · by_cases hyr : y ∈ rest
        · have := L5 y hyr
          simp only [List.length_cons]
          omega
        · rw [L4 y hyr, hy, getD_set_self _ _ _ _ hlt]
          simp only [List.length_cons]
          omega
      · have := L5 y hy
        simp only [List.length_cons]
        omega

/-- Correctness facts for the inner child-recording loop. -/
theorem setChildren_facts :
    ∀ (children : List ℕ) (pid : ℕ) (acc acc' : List ℕ),
      setChildren pid children acc = some acc' →
      acc'.length = acc.length ∧
      (∀ y, acc'.getD y UMAX = acc.getD y UMAX ∨
        (y ∈ children ∧ acc'.getD y UMAX = pid)) ∧
      (∀ y ∈ children, acc'.getD y UMAX = pid) ∧
      (∀ y ∈ children, y < acc.length)
  | [], pid, acc, acc', h => by
    simp only [setChildren, Option.some.injEq] at h
    subst h
    exact ⟨rfl, fun y => Or.inl rfl, by simp, by simp⟩
  | ch :: rest, pid, acc, acc', h => by
    simp only [setChildren, Option.bind_eq_bind, Option.bind_eq_some] at h
    obtain ⟨acc1, hset, hrec⟩ := h
    obtain ⟨hlt, hval⟩ := setOpt_some hset
    subst hval
    obtain ⟨S1, S2, S3, S4⟩ := setChildren_facts rest pid (acc.set ch pid) acc' hrec
    refine ⟨by simpa using S1, ?_, ?_, ?_⟩
    · intro y
      rcases S2 y with hy | hy
      · by_cases hc : y = ch
        · subst hc
          rw [hy, getD_set_self _ _ _ _ hlt]
          exact Or.inr ⟨List.mem_cons_self _ _, rfl⟩
        · rw [hy, getD_set_ne _ _ _ _ _ (fun he => hc he.symm)]
          exact Or.inl rfl
      · exact Or.inr ⟨List.mem_cons_of_mem _ hy.1, hy.2⟩
    · intro y hy
      rcases List.mem_cons.mp hy with hy | hy
      · subst hy
        rcases S2 y with h2 | h2
        · rw [h2, getD_set_self _ _ _ _ hlt]
        · exact h2.2
      · exact S3 y hy
    · intro y hy
      rcases List.mem_cons.mp hy with hy | hy
      · omega
      · have := S4 y hy
        simpa using this

/-- Correctness facts for the `all_parents` filling pass. -/
theorem fillParents_facts :
    ∀ (nodes : List GNode) (pid0 : ℕ) (acc acc' : List ℕ),
      pid0 + nodes.length ≤ UMAX →
      fillParents nodes pid0 acc = some acc' →
      acc'.length = acc.length ∧
      (∀ y, acc'.getD y UMAX ≠ UMAX →
        (∃ j, j < nodes.length ∧ acc'.getD y UMAX = pid0 + j ∧
          y ∈ (nodes.getD j gnodeDflt).children) ∨
        (acc'.getD y UMAX = acc.getD y UMAX ∧ acc.getD y UMAX ≠ UMAX)) ∧
      (∀ j, j < nodes.length → ∀ y ∈ (nodes.getD j gnodeDflt).children,
        acc'.getD y UMAX ≠ UMAX) ∧
      (∀ y, acc.getD y UMAX ≠ UMAX → acc'.getD y UMAX ≠ UMAX) ∧
      (∀ j, j < nodes.length → ∀ y ∈ (nodes.getD j gnodeDflt).children,
        y < acc.length)
  | [], pid0, acc, acc', _, h => by
    simp only [fillParents, Option.some.injEq] at h
    subst h
    exact ⟨rfl, fun y hy => Or.inr ⟨rfl, hy⟩, by simp, fun y hy => hy, by simp⟩
  | n :: rest, pid0, acc, acc', hbound, h => by
    simp only [fillParents, Option.bind_eq_bind, Option.bind_eq_some] at h
    obtain ⟨acc1, hset, hrec⟩ := h
    obtain ⟨S1, S2, S3, S4⟩ := setChildren_facts n.children pid0 acc acc1 hset
    have hbound' : pid0 + 1 + rest.length ≤ UMAX := by
      simp only [List.length_cons] at hbound
      omega
    obtain ⟨P1, P2, P3, P4, P5⟩ := fillParents_facts rest (pid0 + 1) acc1 acc' hbound' hrec
    have hpid0 : pid0 < UMAX := by
      simp only [List.length_cons] at hbound
      omega
    refine ⟨P1.trans S1, ?_, ?_, ?_, ?_⟩
    · intro y hy
      rcases P2 y hy with ⟨j, hj, hv, hm⟩ | ⟨hv, hne⟩
      · exact Or.inl ⟨j + 1, by simpa using hj, by omega, hm⟩
      · rcases S2 y with h2 | h2
        · rw [h2] at hv hne
          exact Or.inr ⟨hv, hne⟩
        · exact Or.inl ⟨0, by simp, by rw [hv, h2.2]; omega, h2.1⟩
    · intro j hj y hy
      cases j with
      | zero =>
        have h1 : acc1.getD y UMAX = pid0 := S3 y hy
        exact P4 y (by rw [h1]; omega)
      | succ j =>
        exact P3 j (by simpa using hj) y hy
    · intro y hy
      apply P4
      rcases S2 y with h2 | h2
      · rw [h2]; exact hy
      · rw [h2.2]; omega
    · intro j hj y hy
      cases j with
      | zero => exact S4 y hy
      | succ j =>
        have := P5 j (by simpa using hj) y hy
        rw [S1] at this
        exact this

/-- One iteration of the traversal loop of `Animator::new` preserves the
invariant `TravInv`. -/
theorem travStep_inv {c : BuildCtx} {numJoints : ℕ} {rank : ℕ → ℕ} {r : ℕ}
    (BF : BuildFacts c numJoints rank r)
    {s : TravState} {nodeId : ℕ} {rest : List ℕ} {s' : TravState}
    (hstack : s.stack = nodeId :: rest)
    (hstep : travStep c nodeId rest s = some s')
    (inv : TravInv c numJoints r s) :
    TravInv c numJoints r s' := by
  rw [travStep] at hstep
  simp only [Option.bind_eq_bind, Option.bind_eq_some] at hstep
  obtain ⟨jointId, hj, gnode, hg, hstep⟩ := hstep
  have hnid : nodeId < c.allNodes.length := get?_some_lt hg
  have hgnode : gnode = c.allNodes.getD nodeId gnodeDflt := get?_some_getD gnodeDflt hg
  have hjval : jointId = c.g2joint.getD nodeId UMAX := get?_some_getD UMAX hj
  have hchild : ∀ x ∈ gnode.children, childOf c.allNodes x nodeId := by
    intro x hx
    exact ⟨hnid, by rw [← hgnode]; exact hx⟩
  have hapx : ∀ x ∈ gnode.children, c.allParents.getD x UMAX = nodeId := by
    intro x hx
    exact BF.uniqParent x _ _
      (BF.apFact x (BF.apComplete x nodeId (hchild x hx))) (hchild x hx)
  have hmemstack : nodeId ∈ s.stack := by
    rw [hstack]
    exact List.mem_cons_self _ _
  have hmemrest : ∀ x ∈ rest, x ∈ s.stack := by
    intro x hx
    rw [hstack]
    exact List.mem_cons_of_mem _ hx
  have hnotassigned : s.g2i.getD nodeId UMAX = UMAX := by
    by_contra hne
    exact inv.fresh nodeId hmemstack nodeId hne (Reaches.refl nodeId)
  have hdisj_head : ∀ b ∈ rest, ∀ y, Reaches c.allNodes nodeId y →
      Reaches c.allNodes b y → False := by
    have := inv.disj
    rw [hstack, List.pairwise_cons] at this
    exact this.1
  have hdisj_rest : rest.Pairwise
      (fun a b => ∀ y, Reaches c.allNodes a y → Reaches c.allNodes b y → False) := by
    have := inv.disj
    rw [hstack, List.pairwise_cons] at this
    exact this.2
  have hstack1 : gnode.children.foldl (fun st ch => ch :: st) rest =
      gnode.children.reverse ++ rest := foldl_cons_eq _ _
  have hnd : gnode.children.Nodup := by
    rw [hgnode]
    exact BF.nodupChildren nodeId hnid
  have hpw_children : gnode.children.Pairwise
      (fun a b => ∀ y, Reaches c.allNodes a y → Reaches c.allNodes b y → False) := by
    refine List.Pairwise.imp_of_mem ?_ hnd
    intro a b ha hb hne
    exact siblings_disjoint BF.uniqParent BF.rankLt (hchild a ha) (hchild b hb) hne
  have hpw_stack1 : (gnode.children.reverse ++ rest).Pairwise
      (fun a b => ∀ y, Reaches c.allNodes a y → Reaches c.allNodes b y → False) := by
    rw [List.pairwise_append]
    refine ⟨?_, hdisj_rest, ?_⟩
    · rw [List.pairwise_reverse]
      refine hpw_children.imp_of_mem ?_
      intro a b _ _ hab y h1 h2
      exact hab y h2 h1
    · intro a ha b hb y h1 h2
      rw [List.mem_reverse] at ha
      have hna : Reaches c.allNodes nodeId y :=
        reaches_trans (Reaches.tail (Reaches.refl nodeId) (hchild a ha)) h1
      exact hdisj_head b hb y hna h2
  have hreach_up : ∀ x ∈ gnode.children, ∀ j, Reaches c.allNodes x j →
      Reaches c.allNodes nodeId j := by
    intro x hx j hr
    exact reaches_trans (Reaches.tail (Reaches.refl nodeId) (hchild x hx)) hr
  by_cases hjoint : jointId < UMAX
  · -- joint branch
    rw [if_pos hjoint] at hstep
    simp only [Option.bind_eq_bind, Option.bind_eq_some, Option.some.injEq] at hstep
    obtain ⟨j2i1, hset1, g2i1, hset2, ap, hap, parentId, hpar, parents1, hset3,
      hrest⟩ := hstep
    have hfin : ∃ invT, s' =
        ⟨gnode.children.foldl (fun st ch => ch :: st) rest, g2i1, j2i1, parents1,
          s.startNodes ++ [⟨gnode.rotation, gnode.translation, gnode.scale⟩],
          s.invTs ++ [invT]⟩ := by
      cases hio : c.invOpt with
      | some transforms =>
        rw [hio] at hrest
        simp only [Option.bind_eq_some, Option.some.injEq] at hrest
        obtain ⟨y, -, hy⟩ := hrest
        exact ⟨y, hy.symm⟩
      | none =>
        rw [hio] at hrest
        by_cases hplt : parentId < UMAX
        · rw [if_pos hplt] at hrest
          simp only [Option.bind_eq_some, Option.some.injEq] at hrest
          obtain ⟨y, -, hy⟩ := hrest
          exact ⟨y, hy.symm⟩
        · rw [if_neg hplt] at hrest
          simp only [Option.some_bind, Option.some.injEq] at hrest
          exact ⟨_, hrest.symm⟩
    obtain ⟨invT, hfin⟩ := hfin
    obtain ⟨hjlt, hj2i1⟩ := setOpt_some hset1
    obtain ⟨hnlt, hg2i1⟩ := setOpt_some hset2
    obtain ⟨hilt, hparents1⟩ := setOpt_some hset3
    have hap' : ap = c.allParents.getD nodeId UMAX := by
      apply get?_some_getD
      exact hap
    have hparval : parentId = g2i1.getD ap UMAX := get?_some_getD UMAX hpar
    have hisJ : c.g2joint.getD nodeId UMAX ≠ UMAX := by
      rw [← hjval]
      omega
    have hapne : ap ≠ nodeId := by
      intro he
      have hnu : c.allParents.getD nodeId UMAX ≠ UMAX := by
        rw [← hap', he]
        have := BF.nLen
        omega
      have hrk := BF.rankLt nodeId _ (BF.apFact nodeId hnu)
      rw [← hap', he] at hrk
      omega
    have hparval2 : parentId = s.g2i.getD ap UMAX := by
      rw [hparval, hg2i1, getD_set_ne _ _ _ _ _ (fun he => hapne he.symm)]
    have hLnum : s.startNodes.length < numJoints := by
      rw [inv.parLen] at hilt
      exact hilt
    have hLneU : s.startNodes.length ≠ UMAX := by
      have := BF.jLen
      omega
    have hmono : ∀ y, s.g2i.getD y UMAX ≠ UMAX → g2i1.getD y UMAX ≠ UMAX := by
      intro y hy
      rw [hg2i1]
      by_cases hyn : y = nodeId
      · subst hyn
        rw [getD_set_self _ _ _ _ hnlt]
        exact hLneU
      · rw [getD_set_ne _ _ _ _ _ (fun he => hyn he.symm)]
        exact hy
    subst hfin
    refine ⟨?_, ?_, ?_, ?_, ?_, ?_, ?_, ?_, ?_, ?_, ?_⟩
    · rw [hg2i1]
      simp [inv.g2iLen]
    · rw [hparents1]
      simp [inv.parLen]
    · simp only [List.length_append, List.length_singleton]
      omega
    ·
      intro y hy
      simp only [List.length_append, List.length_singleton]
      simp only at hy
      by_cases hyn : y = nodeId
      · subst hyn
        rw [hg2i1, getD_set_self _ _ _ _ hnlt]
        exact ⟨hisJ, by omega⟩
      · rw [hg2i1, getD_set_ne _ _ _ _ _ (fun he => hyn he.symm)] at hy ⊢
        obtain ⟨h1, h2⟩ := inv.assigned y hy
        exact ⟨h1, by omega⟩
    ·
      intro x hx hjx
      simp only [hstack1] at hx
      simp only at hjx ⊢
      rcases List.mem_append.mp hx with hx | hx
      · rw [List.mem_reverse] at hx
        rw [hapx x hx] at hjx ⊢
        rw [hg2i1, getD_set_self _ _ _ _ hnlt]
        exact hLneU
      · have hold := inv.stackParent x (hmemrest x hx) hjx
        exact hmono _ hold
    ·
      simp only [hstack1]
      exact hpw_stack1
    ·
      intro x hx j hj hreach
      simp only [hstack1] at hx
      simp only at hj
      by_cases hjn : j = nodeId
      · subst hjn
        rcases List.mem_append.mp hx with hx | hx
        · rw [List.mem_reverse] at hx
          exact child_not_reaches BF.rankLt (hchild x hx) hreach
        · exact hdisj_head x hx j (Reaches.refl j) hreach
      · rw [hg2i1, getD_set_ne _ _ _ _ _ (fun he => hjn he.symm)] at hj
        rcases List.mem_append.mp hx with hx | hx
        · rw [List.mem_reverse] at hx
          exact inv.fresh nodeId hmemstack j hj (hreach_up x hx j hreach)
        · exact inv.fresh x (hmemrest x hx) j hj hreach
    ·
      intro _
      simp only
      rcases Nat.eq_zero_or_pos s.startNodes.length with hL | hL
      · rw [hparents1, hL, getD_set_self _ _ _ _ (by omega)]
        rw [hparval2]
        by_contra hne
        have := (inv.assigned ap hne).2
        omega
      · rw [hparents1, getD_set_ne _ _ _ _ _ (by omega)]
        exact inv.par0 hL
    ·
      intro i hi0 hiU
      simp only [List.length_append, List.length_singleton] at hiU
      simp only
      by_cases hiL : i = s.startNodes.length
      · subst hiL
        rw [hparents1, getD_set_self _ _ _ _ hilt]
        have hner : nodeId ≠ r := by
          intro he
          have hra := inv.rootAssigned (by omega)
          rw [← he] at hra
          exact hra hnotassigned
        have hoj := BF.onlyRoot nodeId hisJ hner
        have hsp := inv.stackParent nodeId hmemstack hoj
        rw [← hap'] at hsp
        have := (inv.assigned ap hsp).2
        omega
      · rw [hparents1, getD_set_ne _ _ _ _ _ (fun he => hiL he.symm)]
        exact inv.parLt i hi0 (by omega)
    ·
      intro i hi
      simp only [List.length_append, List.length_singleton] at hi
      simp only
      rw [hparents1, getD_set_ne _ _ _ _ _ (by omega)]
      exact inv.parHi i (by omega)
    ·
      intro _
      simp only
      by_cases hnr : nodeId = r
      · subst hnr
        rw [hg2i1, getD_set_self _ _ _ _ hnlt]
        exact hLneU
      · rcases Nat.eq_zero_or_pos s.startNodes.length with hL | hL
        · exfalso
          have hoj := BF.onlyRoot nodeId hisJ hnr
          have hsp := inv.stackParent nodeId hmemstack hoj
          have := (inv.assigned _ hsp).2
          omega
        · exact hmono _ (inv.rootAssigned hL)
  · -- non-joint branch
    rw [if_neg hjoint] at hstep
    simp only [Option.some.injEq] at hstep
    have hnj : c.g2joint.getD nodeId UMAX = UMAX := by
      by_contra hne
      have := BF.g2jBound nodeId hne
      rw [← hjval] at hne this
      omega
    subst hstep
    refine ⟨inv.g2iLen, inv.parLen, inv.snLen, inv.assigned, ?_, ?_, ?_,
      inv.par0, inv.parLt, inv.parHi, inv.rootAssigned⟩
    · intro x hx hjx
      simp only [hstack1] at hx
      simp only at hjx ⊢
      rcases List.mem_append.mp hx with hx | hx
      · rw [List.mem_reverse] at hx
        rw [hapx x hx] at hjx
        exact absurd hjx (by rw [hnj]; simp)
      · exact inv.stackParent x (hmemrest x hx) hjx
    · simp only [hstack1]
      exact hpw_stack1
    · intro x hx j hj hreach
      simp only [hstack1] at hx
      simp only at hj
      rcases List.mem_append.mp hx with hx | hx
      · rw [List.mem_reverse] at hx
        exact inv.fresh nodeId hmemstack j hj (hreach_up x hx j hreach)
      · exact inv.fresh x (hmemrest x hx) j hj hreach

/-- A terminating traversal of `Animator::new` preserves `TravInv` and ends
with an empty stack. -/
theorem traverse_inv {c : BuildCtx} {numJoints : ℕ} {rank : ℕ → ℕ} {r : ℕ}
    (BF : BuildFacts c numJoints rank r) :
    ∀ (fuel : ℕ) (s s' : TravState), traverse c fuel s = some s' →
      TravInv c numJoints r s → TravInv c numJoints r s' ∧ s'.stack = [] := by
  intro fuel
  induction fuel with
  | zero =>
    intro s s' h
    exact absurd h (by simp [traverse])
  | succ fuel ih =>
    intro s s' h hinv
    rw [traverse] at h
    cases hstack : s.stack with
    | nil =>
      rw [hstack] at h
      simp only [Option.some.injEq] at h
      subst h
      exact ⟨hinv, hstack⟩
    | cons nodeId rest =>
      rw [hstack] at h
      simp only [Option.bind_eq_bind, Option.bind_eq_some] at h
      obtain ⟨s2, hstep, hrec⟩ := h
      exact ih s2 s' hrec (travStep_inv BF hstack hstep hinv)

/-- C3: on a well-formed node hierarchy — child lists are duplicate-free, each
node has at most one parent, the child relation admits a rank function
(acyclicity), and a joint `r` exists such that every other joint's glTF parent
is itself a joint — a successful `Animator::new` yields `parents[i] < i` for
every internal joint id `i > 0`, with the `usize::MAX` sentinel exactly at the
root joint `parents[0]`; and no subsequent operation (`reset`, `animate`,
`scale_node`, `translate_node`, `rotate_node`) modifies `parents`. -/
theorem hierarchy_invariant (fuel : ℕ) (allNodes : List GNode) (nodeIds : List ℕ)
    (invOpt : Option (List Transform)) (rank : ℕ → ℕ) (r : ℕ)
    (hLen : allNodes.length < UMAX)
    (hjLen : nodeIds.length < UMAX)
    (hUniq : ∀ p1, p1 < allNodes.length → ∀ p2, p2 < allNodes.length →
      ∀ x ∈ (allNodes.getD p1 gnodeDflt).children,
        x ∈ (allNodes.getD p2 gnodeDflt).children → p1 = p2)
    (hNodup : ∀ p, p < allNodes.length → (allNodes.getD p gnodeDflt).children.Nodup)
    (hRank : ∀ p, p < allNodes.length →
      ∀ x ∈ (allNodes.getD p gnodeDflt).children, rank p < rank x)
    (hr : r ∈ nodeIds)
    (hW5 : ∀ j ∈ nodeIds, j ≠ r →
      ∃ p ∈ nodeIds, j ∈ (allNodes.getD p gnodeDflt).children)
    (a : Animator) (g2i j2i : List ℕ)
    (hnew : animatorNew fuel allNodes nodeIds invOpt = some (a, g2i, j2i)) :
    (∀ i, 0 < i → i < a.nodes.length → a.parents.getD i UMAX < i) ∧
    a.parents.getD 0 UMAX = UMAX ∧
    (∀ i, 0 < i → i < a.nodes.length → a.parents.getD i UMAX ≠ UMAX) ∧
    (∀ (F : RealFns) (op : AnimOp) (a' : Animator),
      applyOp F a op = some a' → a'.parents = a.parents) ∧
    a.reset.parents = a.parents := by
  obtain ⟨g2joint, allParents, first, root, sFinal, hg2j, hap, hfirst, hroot,
    htrav, ha, -, -⟩ := animatorNew_shape hnew
  obtain ⟨G1, G2, G3, G4, G5⟩ :=
    fillG2J_facts nodeIds 0 (List.replicate allNodes.length UMAX) g2joint hg2j
  rw [List.length_replicate] at G1 G2
  have hmemJ : ∀ y ∈ nodeIds, g2joint.getD y UMAX ≠ UMAX := by
    intro y hy
    have := G5 y hy
    omega
  have hJmem : ∀ y, g2joint.getD y UMAX ≠ UMAX → y ∈ nodeIds := by
    intro y hy
    rcases G3 y hy with h | h
    · exact h
    · exact absurd getD_replicate_self h
  obtain ⟨P1, P2, P3, P4, P5⟩ :=
    fillParents_facts allNodes 0 (List.replicate allNodes.length UMAX) allParents
      (by omega) hap
  rw [List.length_replicate] at P1 P5
  have hapFact : ∀ x, allParents.getD x UMAX ≠ UMAX →
      childOf allNodes x (allParents.getD x UMAX) := by
    intro x hx
    rcases P2 x hx with ⟨j, hj, hv, hm⟩ | ⟨-, h⟩
    · rw [hv]
      exact ⟨by omega, by simpa [Nat.zero_add] using hm⟩
    · exact absurd getD_replicate_self h
  have hapComplete : ∀ x p, childOf allNodes x p → allParents.getD x UMAX ≠ UMAX := by
    intro x p hxp
    exact P3 p hxp.1 x hxp.2
  have hUniq' : ∀ x p1 p2, childOf allNodes x p1 → childOf allNodes x p2 → p1 = p2 := by
    intro x p1 p2 h1 h2
    exact hUniq p1 h1.1 p2 h2.1 x h1.2 h2.2
  have hRank' : ∀ x p, childOf allNodes x p → rank p < rank x := by
    intro x p hxp
    exact hRank p hxp.1 x hxp.2
  have BF : BuildFacts ⟨allNodes, g2joint, allParents, invOpt⟩ nodeIds.length rank r :=
    { g2jLen := G1
      apLen := P1
      nLen := hLen
      jLen := hjLen
      g2jBound := by
        intro y hy
        have hy' : g2joint.getD y UMAX ≠ UMAX := hy
        have hym := hJmem y hy'
        have hv := G5 y hym
        show g2joint.getD y UMAX < UMAX
        omega
      apFact := hapFact
      apComplete := hapComplete
      uniqParent := hUniq'
      nodupChildren := hNodup
      rankLt := hRank'
      rJoint := hmemJ r hr
      onlyRoot := by
        intro j hj hjr
        have hjm := hJmem j hj
        obtain ⟨p, hp, hmem⟩ := hW5 j hjm hjr
        have hplt : p < allNodes.length := G2 p hp
        have hco : childOf allNodes j p := ⟨hplt, hmem⟩
        have hne := hapComplete j p hco
        have heq := hUniq' j _ _ (hapFact j hne) hco
        rw [heq]
        exact hmemJ p hp }
  have hrootlt : root < allParents.length := get?_some_lt (findRoot_stop hroot)
  have hrootU : allParents.getD root UMAX = UMAX :=
    (Option.some.injEq _ _).mp
      ((get?_eq_some_getD allParents root hrootlt UMAX).symm.trans
        (findRoot_stop hroot))
  have hinv0 : TravInv ⟨allNodes, g2joint, allParents, invOpt⟩ nodeIds.length r
      ⟨[root], List.replicate allNodes.length UMAX,
        List.replicate nodeIds.length UMAX, List.replicate nodeIds.length UMAX,
        [], []⟩ :=
    { g2iLen := List.length_replicate _ _
      parLen := List.length_replicate _ _
      snLen := by simp
      assigned := by
        intro y hy
        exact absurd getD_replicate_self hy
      stackParent := by
        intro x hx hjx
        simp only [List.mem_singleton] at hx
        subst hx
        simp only at hjx
        rw [hrootU] at hjx
        rw [getD_of_length_le g2joint UMAX UMAX (by omega)] at hjx
        exact absurd rfl hjx
      disj := List.pairwise_singleton _ _
      fresh := by
        intro x _ j hj
        exact absurd getD_replicate_self hj
      par0 := by
        intro h
        simp at h
      parLt := by
        intro i _ h
        simp at h
      parHi := by
        intro i _
        exact getD_replicate_self
      rootAssigned := by
        intro h
        simp at h }
  obtain ⟨invF, hstackF⟩ := traverse_inv BF fuel _ sFinal htrav hinv0
  subst ha
  refine ⟨?_, ?_, ?_, ?_, rfl⟩
  · intro i hi0 hiL
    exact invF.parLt i hi0 hiL
  · rcases Nat.eq_zero_or_pos sFinal.startNodes.length with hL | hL
    · exact invF.parHi 0 (by omega)
    · exact invF.par0 hL
  · intro i hi0 hiL hEq
    have hiL' : i < sFinal.startNodes.length := hiL
    have h1 := invF.parLt i hi0 hiL'
    have h2 := invF.snLen
    have h3 := BF.jLen
    have hEq' : sFinal.parents.getD i UMAX = UMAX := hEq
    omega
  · intro F op a' hop
    exact (applyOp_fields F _ op a' hop).2.2.1

/-- C1 amended: `a.compose(b)` applies `b` first and `a` second under the
row-vector convention: its rotation-scale block is the 3×3 matrix product
`b.rotation_scale × a.rotation_scale`, its translation is `b.translation`
transformed by `a`'s rotation-scale block plus `a.translation`, its homogeneous
matrix is `to_homogeneous(b) × to_homogeneous(a)`, and applying it to a row
vector applies `b` first and `a` second. -/
theorem compose_spec (a b : Transform) :
    (a.compose b).rotationScale = b.rotationScale * a.rotationScale ∧
    (a.compose b).translation =
      Matrix.vecMul b.translation a.rotationScale + a.translation ∧
    (a.compose b).toHomogeneous = b.toHomogeneous * a.toHomogeneous ∧
    ∀ v, (a.compose b).rowApply v = a.rowApply (b.rowApply v) := by
  refine ⟨?_, ?_, ?_, ?_⟩
  · ext i j
    fin_cases i <;> fin_cases j <;>
      simp [Transform.compose, Matrix.mul_apply, Fin.sum_univ_succ] <;> ring
  · funext j
    fin_cases j <;>
      simp [Transform.compose, Matrix.vecMul, Matrix.dotProduct, Fin.sum_univ_succ] <;>
      ring
  · ext i j
    fin_cases i <;> fin_cases j <;>
      simp [Transform.compose, Transform.toHomogeneous, Matrix.mul_apply,
        Fin.sum_univ_succ] <;> ring
  · intro v
    funext j
    fin_cases j <;>
      simp [Transform.compose, Transform.rowApply, Matrix.vecMul, Matrix.dotProduct,
        Matrix.vecHead, Matrix.vecTail, Fin.sum_univ_succ] <;> ring

/-- Witness for the pose-evaluation theorem at a concrete two-joint animator. -/
theorem compute_transforms_spec_witness :
    (wAnimator.nodes ≠ [] ∧
      (∀ i, i < wAnimator.nodes.length → 1 ≤ i → wAnimator.parents.getD i 0 < i) ∧
      wAnimator.nodes.length ≤ wAnimator.parents.length ∧
      wAnimator.nodes.length ≤ wAnimator.inverseTransforms.length) ∧
    (∃ r, wAnimator.computeTransforms = some r ∧ r.length = wAnimator.nodes.length ∧
      (∀ j, j < wAnimator.nodes.length → r.getD j Transform.new =
        (wAnimator.cumSpec j).compose
          (wAnimator.inverseTransforms.getD j Transform.new)) ∧
      wAnimator.cumSpec 0 =
        Transform.fromTrs (wAnimator.nodes.getD 0 nodeDflt).translation
          (wAnimator.nodes.getD 0 nodeDflt).rotation
          (wAnimator.nodes.getD 0 nodeDflt).scale ∧
      (∀ i, i < wAnimator.nodes.length → 1 ≤ i →
        wAnimator.cumSpec i =
          (wAnimator.cumSpec (wAnimator.parents.getD i 0)).compose
            (Transform.fromTrs (wAnimator.nodes.getD i nodeDflt).translation
              (wAnimator.nodes.getD i nodeDflt).rotation
              (wAnimator.nodes.getD i nodeDflt).scale))) :=
  ⟨⟨by decide, by decide, by decide, by decide⟩,
    compute_transforms_spec wAnimator (by decide) (by decide) (by decide) (by decide)⟩

/-- Witness for the clamping theorem at a concrete two-keyframe step channel. -/
theorem channel_compute_clamps_witness :
    (wChannelStep.timestamps ≠ [] ∧
      (∀ j, j < wChannelStep.timestamps.length → ∀ i, i < j →
        wChannelStep.timestamps.getD i 0 < wChannelStep.timestamps.getD j 0) ∧
      wChannelStep.tMin = wChannelStep.timestamps.getD 0 0 ∧
      wChannelStep.tMax =
        wChannelStep.timestamps.getD (wChannelStep.timestamps.length - 1) 0) ∧
    ((∀ t, t ≤ wChannelStep.tMin →
      wChannelStep.compute wRealFns t =
        wChannelStep.animatedProperty.getValue 0 wChannelStep.nodeId) ∧
    (∀ t, wChannelStep.tMax ≤ t →
      wChannelStep.compute wRealFns t =
        wChannelStep.animatedProperty.getValue
          (wChannelStep.timestamps.length - 1) wChannelStep.nodeId)) :=
  ⟨⟨by decide, by decide, by decide, by decide⟩,
    channel_compute_clamps wRealFns wChannelStep (by decide) (by decide)
      (by decide) (by decide)⟩

/-- Witness for the interval-search theorem at a concrete three-keyframe linear
channel evaluated at `t = 1`. -/
theorem channel_compute_search_witness :
    (2 ≤ wChannelLinear.timestamps.length ∧
      (∀ j, j < wChannelLinear.timestamps.length → ∀ i, i < j →
        wChannelLinear.timestamps.getD i 0 < wChannelLinear.timestamps.getD j 0) ∧
      wChannelLinear.tMin = wChannelLinear.timestamps.getD 0 0 ∧
      wChannelLinear.tMax =
        wChannelLinear.timestamps.getD (wChannelLinear.timestamps.length - 1) 0 ∧
      wChannelLinear.tMin < (1 : ℚ) ∧ (1 : ℚ) < wChannelLinear.tMax) ∧
    ((wChannelLinear.getIndex 1 + 1 < wChannelLinear.timestamps.length ∧
      wChannelLinear.timestamps.getD (wChannelLinear.getIndex 1) 0 ≤ 1 ∧
      (1 : ℚ) <
        wChannelLinear.timestamps.getD (wChannelLinear.getIndex 1 + 1) 0) ∧
    (∀ j, j + 1 < wChannelLinear.timestamps.length →
      wChannelLinear.timestamps.getD j 0 ≤ 1 →
      (1 : ℚ) < wChannelLinear.timestamps.getD (j + 1) 0 →
      j = wChannelLinear.getIndex 1) ∧
    wChannelLinear.compute wRealFns 1 =
      wChannelLinear.animatedProperty.interpolateValue wRealFns
        (wChannelLinear.getIndex 1) wChannelLinear.nodeId 1
        (wChannelLinear.timestamps.getD (wChannelLinear.getIndex 1) 0)
        (wChannelLinear.timestamps.getD (wChannelLinear.getIndex 1 + 1) 0)) :=
  ⟨⟨by decide, by decide, by decide, by decide, by decide, by decide⟩,
    channel_compute_search wRealFns wChannelLinear (by decide) (by decide)
      (by decide) (by decide) 1 (by decide) (by decide)⟩

/-- Witness for the hierarchy-invariant theorem at the concrete three-node,
two-joint input `wAllNodes`, with rank function `id` and joint root `1`. -/
theorem hierarchy_invariant_witness :
    (wAllNodes.length < UMAX ∧ wNodeIds.length < UMAX ∧
      (∀ p1, p1 < wAllNodes.length → ∀ p2, p2 < wAllNodes.length →
        ∀ x ∈ (wAllNodes.getD p1 gnodeDflt).children,
          x ∈ (wAllNodes.getD p2 gnodeDflt).children → p1 = p2) ∧
      (∀ p, p < wAllNodes.length → (wAllNodes.getD p gnodeDflt).children.Nodup) ∧
      (∀ p, p < wAllNodes.length →
        ∀ x ∈ (wAllNodes.getD p gnodeDflt).children, id p < id x) ∧
      1 ∈ wNodeIds ∧
      (∀ j ∈ wNodeIds, j ≠ 1 →
        ∃ p ∈ wNodeIds, j ∈ (wAllNodes.getD p gnodeDflt).children) ∧
      animatorNew 8 wAllNodes wNodeIds wInv = some (wBuiltAnimator, wG2i, wJ2i)) ∧
    ((∀ i, 0 < i → i < wBuiltAnimator.nodes.length →
        wBuiltAnimator.parents.getD i UMAX < i) ∧
      wBuiltAnimator.parents.getD 0 UMAX = UMAX ∧
      (∀ i, 0 < i → i < wBuiltAnimator.nodes.length →
        wBuiltAnimator.parents.getD i UMAX ≠ UMAX) ∧
      (∀ (F : RealFns) (op : AnimOp) (a' : Animator),
        applyOp F wBuiltAnimator op = some a' →
          a'.parents = wBuiltAnimator.parents) ∧
      wBuiltAnimator.reset.parents = wBuiltAnimator.parents) :=
  ⟨⟨by decide, by decide, by decide, by decide, by decide, by decide, by decide,
      by decide⟩,
    hierarchy_invariant 8 wAllNodes wNodeIds wInv id 1 (by decide) (by decide)
      (by decide) (by decide) (by decide) (by decide) (by decide)
      wBuiltAnimator wG2i wJ2i (by decide)⟩

/-- Witness for reset idempotence after a concrete `translate_node` call on the
concretely built animator. -/
theorem reset_idempotence_witness :
    (animatorNew 8 wAllNodes wNodeIds wInv = some (wBuiltAnimator, wG2i, wJ2i) ∧
      applyOps wRealFns wOps wBuiltAnimator = some wMutatedAnimator) ∧
    (wMutatedAnimator.reset.computeTransforms = wBuiltAnimator.computeTransforms ∧
      wMutatedAnimator.reset = wBuiltAnimator) :=
  ⟨⟨by decide, rfl⟩,
    reset_idempotence 8 wAllNodes wNodeIds wInv wBuiltAnimator wG2i wJ2i
      (by decide) wRealFns wOps wMutatedAnimator rfl⟩

/-- Witness for the morph-target skip behaviour at a concrete channel. -/
theorem malformed_channel_handling_witness :
    (wChannelMorph.outputs = GltfOutputs.morphTargetWeights [0, 1] ∧
      loadChannel wChannelMorph [0] [0] = none) ∧
    loadAnimation [wChannelMorph] [0] [0] =
      ⟨(loadAnimation [] [0] [0]).channels ++ (loadAnimation [] [0] [0]).channels⟩ :=
  ⟨⟨rfl, malformed_channel_handling.1 wChannelMorph [0] [0] [0, 1] rfl⟩,
    malformed_channel_handling.2.1 [] [] wChannelMorph [0] [0] [0, 1] rfl⟩

/-- Witness for the root-joint panic at the concrete input `rAllNodes`, whose
traversal root node `0` is a joint. -/
theorem root_joint_panics_witness :
    (fillG2J rNodeIds 0 (List.replicate rAllNodes.length UMAX) = some [0, 1] ∧
      fillParents rAllNodes 0 (List.replicate rAllNodes.length UMAX) =
        some [UMAX, 0] ∧
      rNodeIds.get? 0 = some 0 ∧
      findRoot [UMAX, 0] 8 0 = some 0 ∧
      ([0, 1] : List ℕ).getD 0 UMAX < UMAX ∧
      ([0, 1] : List ℕ).length = rAllNodes.length ∧
      rAllNodes.length < UMAX) ∧
    animatorNew 8 rAllNodes rNodeIds none = none :=
  ⟨⟨by decide, by decide, by decide, by decide, by decide, by decide, by decide⟩,
    root_joint_panics 8 rAllNodes rNodeIds none [0, 1] [UMAX, 0] 0 0 (by decide)
      (by decide) (by decide) (by decide) (by decide) (by decide) (by decide)⟩

end KorEngine
